import Mathlib

/-!
goaux/anys: conversions between typed slices and slices of `any`.

A shallow embedding of `anys.go` (From, Map, BackTo, Append, AppendMap,
grow, AppendBackTo) over an explicit model of Go slices:

* a slice is a header (pointer to a backing array with an offset, length,
  capacity); the nil slice has no pointer;
* backing arrays live in a memory, one heap per element type, so that two
  slices of the same element type may share cells while slices of different
  element types never do;
* the builtin `make`, index read, index write, re-slice and `append` are
  modelled on that memory, `append` writing in place when the capacity
  suffices and moving to a fresh array otherwise;
* a static type is a concrete type, `any`, or a named interface type; the
  conversion `any(v)` and the type assertion `x.(T)` are defined by cases on
  the static type;
* a Go `func(S) T` value may be nil and may have effects on a caller state.

Lengths are unbounded naturals and allocation never fails: the failures of
the runtime on exhausted memory or on a length beyond the range of `int` are
outside the model. The arithmetic of the source itself, `n -= cap(a) - len(a)`
in `grow`, is on integers between `-cap(a)` and `n` and cannot overflow.
-/

namespace Anys

/-! ## Types and values of the host language -/

/-- Parameters of the host language: the names of the concrete
(non-interface) types with their values and zero values, the names of the
interface types other than `any` with the implements relation, and `slack`,
the number of elements the runtime over-allocates when `append` moves a slice
of old capacity `c` to hold `k` elements (`slack c k`). -/
structure Host where
  Conc : Type
  Iface : Type
  decConc : DecidableEq Conc
  decIface : DecidableEq Iface
  El : Conc → Type
  zero : (c : Conc) → El c
  implements : Conc → Iface → Bool
  slack : Nat → Nat → Nat

instance (L : Host) : DecidableEq L.Conc := L.decConc

instance (L : Host) : DecidableEq L.Iface := L.decIface

/-- Static types: a type parameter of the generic functions ranges over these. -/
inductive Ty (L : Host) where
  | concrete (c : L.Conc)
  | any
  | iface (i : L.Iface)
deriving DecidableEq

/-- Dynamic value held by a non-nil interface: a concrete type and a value of it. -/
structure Dyn (L : Host) where
  tag : L.Conc
  val : L.El tag

/-- Values of a static type. An interface value is nil (`none`) or a dynamic
value, whose type implements the interface. -/
@[reducible] def Val (L : Host) : Ty L → Type
  | .concrete c => L.El c
  | .any => Option (Dyn L)
  | .iface i => Option { d : Dyn L // L.implements d.tag i = true }

/-- Zero value of a type (`var zero T`): nil for interface types. -/
def zeroVal (L : Host) : (T : Ty L) → Val L T
  | .concrete c => L.zero c
  | .any => none
  | .iface _ => none

/-- Conversion `any(v)` of a value of static type `S`. -/
def box {L : Host} : (S : Ty L) → Val L S → Val L .any
  | .concrete c, x => some ⟨c, x⟩
  | .any, x => x
  | .iface _, x => x.map Subtype.val

/-- Type assertion `t, ok := x.(T)`: `some t` when ok, `none` when not. -/
def assertTo {L : Host} : (T : Ty L) → Val L .any → Option (Val L T)
  | _, none => none
  | .concrete c, some d =>
    if h : d.tag = c then some (h ▸ d.val) else none
  | .any, some d => some (some d)
  | .iface i, some d =>
    if h : L.implements d.tag i = true then some (some ⟨d, h⟩) else none

/-- Dynamic type of an `any`: none for the nil interface. -/
def dynType {L : Host} (x : Val L .any) : Option L.Conc :=
  x.map Dyn.tag

/-! ## Memory and slices -/

/-- Heap of backing arrays of one element type: `cell p j` is element `j` of
array `p`; arrays `p < next` are allocated. -/
structure Heap (α : Type) where
  next : Nat
  cell : Nat → Nat → α

/-- Memory: one heap per element type. -/
def Mem (L : Host) : Type := (T : Ty L) → Heap (Val L T)

/-- Slice header. `data` is the backing array and the offset of element 0 in
it, `none` for the nil slice. -/
structure Slice where
  data : Option (Nat × Nat)
  len : Nat
  cap : Nat
deriving DecidableEq

namespace Slice

/-- The nil slice. -/
def nil : Slice := ⟨none, 0, 0⟩

/-- Test `s == nil`. -/
def isNil (s : Slice) : Bool := s.data.isNone

end Slice

namespace Mem

variable {L : Host}

/-- Memory with nothing allocated. -/
def empty (L : Host) : Mem L := fun T => ⟨0, fun _ _ => zeroVal L T⟩

/-- Element `j` of array `p` of element type `T`. -/
def get (m : Mem L) (T : Ty L) (p j : Nat) : Val L T := (m T).cell p j

/-- Store `v` in element `j` of array `p` of element type `T`. -/
def write (m : Mem L) (T : Ty L) (p j : Nat) (v : Val L T) : Mem L :=
  Function.update m T
    ⟨(m T).next, fun q k => if q = p ∧ k = j then v else (m T).cell q k⟩

/-- Store the values `vs` in elements `j, j+1, ..., j+len(vs)-1` of array `p`. -/
def writeList (m : Mem L) (T : Ty L) (p j : Nat) (vs : List (Val L T)) : Mem L :=
  Function.update m T
    ⟨(m T).next, fun q k =>
      if q = p ∧ j ≤ k ∧ k < j + vs.length then vs.getD (k - j) (zeroVal L T)
      else (m T).cell q k⟩

/-- Allocate a fresh array of element type `T` whose element `j` is
`(init.get? j).getD zero`. Returns its name and the new memory. -/
def alloc (m : Mem L) (T : Ty L) (init : List (Val L T)) : Nat × Mem L :=
  ((m T).next,
   Function.update m T
    ⟨(m T).next + 1,
     fun q k => if q = (m T).next then init.getD k (zeroVal L T) else (m T).cell q k⟩)

end Mem

variable {L : Host}

/-- Elements `s[0], ..., s[len(s)-1]` of a slice, as stored in memory. -/
def elems (m : Mem L) (T : Ty L) (s : Slice) : List (Val L T) :=
  match s.data with
  | some (p, o) => (List.range s.len).map (fun i => m.get T p (o + i))
  | none => []

/-- Index expression `s[i]`: `none` is the index-out-of-range panic. -/
def index (m : Mem L) (T : Ty L) (s : Slice) (i : Nat) : Option (Val L T) :=
  match s.data with
  | some (p, o) => if i < s.len then some (m.get T p (o + i)) else none
  | none => none

/-- Assignment `s[i] = v`: `none` is the index-out-of-range panic. -/
def assign (m : Mem L) (T : Ty L) (s : Slice) (i : Nat) (v : Val L T) : Option (Mem L) :=
  match s.data with
  | some (p, o) => if i < s.len then some (m.write T p (o + i) v) else none
  | none => none

/-- Builtin `make([]T, n)`: a fresh zeroed array with length and capacity `n`. -/
def make (m : Mem L) (T : Ty L) (n : Nat) : Slice × Mem L :=
  let r := m.alloc T []
  (⟨some (r.1, 0), n, n⟩, r.2)

/-- Composite literal `[]T{v0, v1, ...}`. -/
def literal (m : Mem L) (T : Ty L) (vs : List (Val L T)) : Slice × Mem L :=
  let r := m.alloc T vs
  (⟨some (r.1, 0), vs.length, vs.length⟩, r.2)

/-- Slice expression `s[:hi]`: `none` is the slice-bounds-out-of-range panic. -/
def resliceTo (s : Slice) (hi : Nat) : Option Slice :=
  if hi ≤ s.cap then some { s with len := hi } else none

/-- Slice expression `s[lo:hi]`. -/
def reslice (s : Slice) (lo hi : Nat) : Option Slice :=
  if lo ≤ hi ∧ hi ≤ s.cap then
    some ⟨s.data.map (fun d => (d.1, d.2 + lo)), hi - lo, s.cap - lo⟩
  else none

/-- Core of the builtin `append`: append the values `vs` to `x`. When
`len(x) + len(vs) <= cap(x)` the values are written in place after the last
element of `x`; otherwise the elements of `x` followed by `vs` are moved to a
fresh array of capacity `len(x) + len(vs) + slack`. -/
def appendVals (m : Mem L) (T : Ty L) (x : Slice) (vs : List (Val L T)) : Slice × Mem L :=
  if x.len + vs.length ≤ x.cap then
    match x.data with
    | some (p, o) => ({ x with len := x.len + vs.length }, m.writeList T p (o + x.len) vs)
    | none => (x, m)
  else
    let r := m.alloc T (elems m T x ++ vs)
    (⟨some (r.1, 0), x.len + vs.length,
      x.len + vs.length + L.slack x.cap (x.len + vs.length)⟩, r.2)

/-- Builtin `append(x, v)`. -/
def append (m : Mem L) (T : Ty L) (x : Slice) (v : Val L T) : Slice × Mem L :=
  appendVals m T x [v]

/-- Builtin `append(x, y...)`: the elements of `y` are read before any write. -/
def appendSlice (m : Mem L) (T : Ty L) (x y : Slice) : Slice × Mem L :=
  appendVals m T x (elems m T y)

/-! ## Function values and loop state -/

/-- A Go value of type `func(S) T`: nil, or a function that may read and
change the state `σ` of its caller. -/
abbrev Func (L : Host) (σ : Type) (S T : Ty L) : Type :=
  Option (Val L S → σ → Val L T × σ)

/-- A pure function as a Go function value. -/
def Func.pure {σ : Type} {S T : Ty L} (f : Val L S → Val L T) : Func L σ S T :=
  some (fun v e => (f v, e))

/-- Variables of a running function body: the memory, the local slice
variable being built, and the state of the caller as seen by `conv`. -/
structure Frame (L : Host) (σ : Type) where
  mem : Mem L
  a : Slice
  env : σ

/-- Statement `for i, v := range s`, from iteration `i` with `k` iterations
to go: the slice header `s` is fixed on entry, `v` is `s[i]` as read when the
iteration starts. -/
def forRange {σ : Type} (S : Ty L) (s : Slice)
    (body : Nat → Val L S → Frame L σ → Option (Frame L σ)) :
    Nat → Nat → Frame L σ → Option (Frame L σ)
  | 0, _, st => some st
  | k + 1, i, st =>
    match index st.mem S s i with
    | none => none
    | some v =>
      match body i v st with
      | none => none
      | some st1 => forRange S s body k (i + 1) st1

/-- Result of a function returning a slice: the slice, the memory and the
caller state after the call. -/
def Frame.result {σ : Type} (st : Frame L σ) : Slice × Mem L × σ :=
  (st.a, st.mem, st.env)

/-! ## anys.go -/

/-- Loop body of `From`: `a[i] = v`. -/
def From.body {σ : Type} (S : Ty L) (i : Nat) (v : Val L S) (st : Frame L σ) :
    Option (Frame L σ) :=
  (assign st.mem .any st.a i (box S v)).map (fun m => { st with mem := m })

/-- `func From[S any](s ...S) []any`. -/
def From (S : Ty L) (m : Mem L) (s : Slice) : Option (Slice × Mem L) :=
  if s.isNil then
    some (Slice.nil, m)
  else
    let r := make m .any s.len
    (forRange S s (From.body S) s.len 0 ⟨r.2, r.1, ()⟩).map (fun st => (st.a, st.mem))

/-- Loop body of `Map`: `a[i] = conv(v)`; calling a nil `conv` panics. -/
def Map.body {σ : Type} (T S : Ty L) (conv : Func L σ S T) (i : Nat) (v : Val L S)
    (st : Frame L σ) : Option (Frame L σ) :=
  match conv with
  | none => none
  | some f =>
    let r := f v st.env
    (assign st.mem T st.a i r.1).map (fun m => { st with mem := m, env := r.2 })

/-- `func Map[T, S any](conv func(S) T, s ...S) []T`. -/
def Map {σ : Type} (T S : Ty L) (m : Mem L) (e : σ) (conv : Func L σ S T) (s : Slice) :
    Option (Slice × Mem L × σ) :=
  if s.isNil then
    some (Slice.nil, m, e)
  else
    let r := make m T s.len
    (forRange S s (Map.body T S conv) s.len 0 ⟨r.2, r.1, e⟩).map Frame.result

/-- Loop body of `BackTo`: `if t, ok := any(v).(T); ok { a[i] = t }`. -/
def BackTo.body {σ : Type} (T S : Ty L) (i : Nat) (v : Val L S) (st : Frame L σ) :
    Option (Frame L σ) :=
  match assertTo T (box S v) with
  | some t => (assign st.mem T st.a i t).map (fun m => { st with mem := m })
  | none => some st

/-- `func BackTo[T, S any](s ...S) []T`. -/
def BackTo (T S : Ty L) (m : Mem L) (s : Slice) : Option (Slice × Mem L) :=
  if s.isNil then
    some (Slice.nil, m)
  else
    let r := make m T s.len
    (forRange S s (BackTo.body T S) s.len 0 ⟨r.2, r.1, ()⟩).map (fun st => (st.a, st.mem))

/-- Statement `t = append(t, y)` on the local slice variable. -/
def Frame.push {σ : Type} (st : Frame L σ) (T : Ty L) (y : Val L T) : Frame L σ :=
  let r := append st.mem T st.a y
  { st with a := r.1, mem := r.2 }

/-- `func grow[A any](a []A, n int) []A`: `n -= cap(a) - len(a)` is computed
on integers; when the rest is positive, `a[:cap(a)]` is extended by
`make([]A, n)` and cut back to `len(a)`. -/
def grow (T : Ty L) (m : Mem L) (a : Slice) (n : Int) : Option (Slice × Mem L) :=
  let n1 : Int := n - ((a.cap : Int) - (a.len : Int))
  if n1 > 0 then
    match resliceTo a a.cap with
    | none => none
    | some full =>
      let z := make m T n1.toNat
      let r := appendSlice z.2 T full z.1
      match resliceTo r.1 a.len with
      | none => none
      | some b => some (b, r.2)
  else
    some (a, m)

/-- Loop body of `Append`: `a = append(a, v)`. -/
def Append.body {σ : Type} (S : Ty L) (_i : Nat) (v : Val L S) (st : Frame L σ) :
    Option (Frame L σ) :=
  some (st.push .any (box S v))

/-- `func Append[S any](a []any, s ...S) []any`. -/
def Append (S : Ty L) (m : Mem L) (a s : Slice) : Option (Slice × Mem L) :=
  if s.isNil then
    some (a, m)
  else
    match grow .any m a s.len with
    | none => none
    | some g =>
      (forRange S s (Append.body S) s.len 0 ⟨g.2, g.1, ()⟩).map (fun st => (st.a, st.mem))

/-- Loop body of `AppendMap`: `t = append(t, conv(v))`; calling a nil `conv`
panics. -/
def AppendMap.body {σ : Type} (T S : Ty L) (conv : Func L σ S T) (_i : Nat) (v : Val L S)
    (st : Frame L σ) : Option (Frame L σ) :=
  match conv with
  | none => none
  | some f =>
    let r := f v st.env
    some ({ st with env := r.2 }.push T r.1)

/-- `func AppendMap[T, S any](t []T, conv func(S) T, s ...S) []T`. -/
def AppendMap {σ : Type} (T S : Ty L) (m : Mem L) (e : σ) (t : Slice) (conv : Func L σ S T)
    (s : Slice) : Option (Slice × Mem L × σ) :=
  if s.isNil then
    some (t, m, e)
  else
    match grow T m t s.len with
    | none => none
    | some g =>
      (forRange S s (AppendMap.body T S conv) s.len 0 ⟨g.2, g.1, e⟩).map Frame.result

/-- Loop body of `AppendBackTo`: append the asserted value when the assertion
`any(v).(T)` is ok, the zero value of `T` otherwise. -/
def AppendBackTo.body {σ : Type} (T S : Ty L) (_i : Nat) (v : Val L S) (st : Frame L σ) :
    Option (Frame L σ) :=
  match assertTo T (box S v) with
  | some t => some (st.push T t)
  | none => some (st.push T (zeroVal L T))

/-- `func AppendBackTo[T, S any](t []T, s ...S) []T`. -/
def AppendBackTo (T S : Ty L) (m : Mem L) (t s : Slice) : Option (Slice × Mem L) :=
  if s.isNil then
    some (t, m)
  else
    match grow T m t s.len with
    | none => none
    | some g =>
      (forRange S s (AppendBackTo.body T S) s.len 0 ⟨g.2, g.1, ()⟩).map
        (fun st => (st.a, st.mem))

/-! ## A small host for concrete runs -/

/-- Value of type `float64`, by its IEEE 754 bit pattern. -/
structure Float64 where
  bits : Nat
deriving DecidableEq

/-- Concrete types of the example host. -/
inductive ExConc where
  | int
  | string
  | float64
deriving DecidableEq

/-- Interface types of the example host: `fmt.Stringer`. -/
inductive ExIface where
  | stringer
deriving DecidableEq

/-- Values of the concrete types of the example host. -/
@[reducible] def ExEl : ExConc → Type
  | .int => Int
  | .string => String
  | .float64 => Float64

/-- Example host: `int`, `string`, `float64`, none of which implements
`fmt.Stringer`; `append` doubles the old capacity when it moves a slice. -/
@[reducible] def Ex : Host where
  Conc := ExConc
  Iface := ExIface
  decConc := inferInstance
  decIface := inferInstance
  El := ExEl
  zero := fun c => match c with
    | .int => (0 : Int)
    | .string => ""
    | .float64 => ⟨0⟩
  implements := fun _ _ => false
  slack := fun c k => 2 * c - k

/-- The type `int` of the example host. -/
abbrev tInt : Ty Ex := .concrete ExConc.int

/-- The type `string` of the example host. -/
abbrev tString : Ty Ex := .concrete ExConc.string

/-- An `int` boxed in an `any`. -/
def anyInt (n : Int) : Val Ex .any := some ⟨ExConc.int, n⟩

/-- A `string` boxed in an `any`. -/
def anyString (s : String) : Val Ex .any := some ⟨ExConc.string, s⟩

/-- A `float64` boxed in an `any`. -/
def anyFloat (bits : Nat) : Val Ex .any := some ⟨ExConc.float64, ⟨bits⟩⟩

/-! ## Well-formed inputs -/

/-- A slice header of element type `T` is valid in a memory: its length is
within its capacity, its backing array is allocated, and the nil slice has
capacity 0. -/
structure Slice.Valid (m : Mem L) (T : Ty L) (s : Slice) : Prop where
  len_le_cap : s.len ≤ s.cap
  allocated : ∀ p o, s.data = some (p, o) → p < (m T).next
  nil_cap : s.data = none → s.cap = 0

/-- Header of `dst` after `n` elements were appended in place: the same
backing array and capacity, `n` more elements. -/
def Slice.extended (dst : Slice) (n : Nat) : Slice :=
  ⟨dst.data, dst.len + n, dst.cap⟩

/-- A call of an append variant with destination `dst` (a slice of `T`) and
values `s` (a slice of `S`) overwrites a value before reading it: the element
types are the same, `dst` has spare capacity for all of `s` (so `grow` leaves
it in place), the two slices are on the same backing array, and for two
iterations `i < j` the cell of `s[j]` is the cell of index `len(dst) + i` of
`dst`, which iteration `i` writes before iteration `j` reads it. -/
def Clobbers (S T : Ty L) (dst s : Slice) : Prop :=
  S = T ∧ s.len ≤ dst.cap - dst.len ∧
  ∃ p od os, dst.data = some (p, od) ∧ s.data = some (p, os) ∧
    ∃ i j, i < j ∧ j < s.len ∧ os + j = od + dst.len + i

/-- A call of an append variant with destination `dst` (a slice of `T`) and
`n` values writes a cell of the slice `t` (a slice of `U`): the element types
are the same, `dst` has spare capacity for `n` elements (so `grow` leaves it
in place), the two slices are on the same backing array, and `t` holds one of
the cells of index `len(dst)` to `len(dst) + n - 1` of `dst`, which are the
cells the loop writes. -/
def WritesInto (T U : Ty L) (dst : Slice) (n : Nat) (t : Slice) : Prop :=
  U = T ∧ n ≤ dst.cap - dst.len ∧
  ∃ p od ot, dst.data = some (p, od) ∧ t.data = some (p, ot) ∧
    ∃ x, ot ≤ x ∧ x < ot + t.len ∧ od + dst.len ≤ x ∧ x < od + dst.len + n

/-- Frame condition of a call: every cell allocated in `m` keeps its value in
`m1`, and nothing is deallocated. -/
def Mem.Extends (m1 m : Mem L) : Prop :=
  (∀ U q x, q < (m U).next → m1.get U q x = m.get U q x) ∧ ∀ U, (m U).next ≤ (m1 U).next

/-- Value that `BackTo` and `AppendBackTo` produce for the element `v`: the
asserted value when `any(v).(T)` is ok, the zero value of `T` otherwise. -/
def narrow (T S : Ty L) (v : Val L S) : Val L T :=
  (assertTo T (box S v)).getD (zeroVal L T)

/-- Equality of the dynamic values of the example host is decidable. -/
instance : DecidableEq (Dyn Ex) := fun x y =>
  match x, y with
  | ⟨.int, a⟩, ⟨.int, b⟩ =>
    if h : a = b then isTrue (by rw [h]) else isFalse (fun e => by cases e; exact h rfl)
  | ⟨.string, a⟩, ⟨.string, b⟩ =>
    if h : a = b then isTrue (by rw [h]) else isFalse (fun e => by cases e; exact h rfl)
  | ⟨.float64, a⟩, ⟨.float64, b⟩ =>
    if h : a = b then isTrue (by rw [h]) else isFalse (fun e => by cases e; exact h rfl)
  | ⟨.int, _⟩, ⟨.string, _⟩ => isFalse (fun e => by cases e)
  | ⟨.int, _⟩, ⟨.float64, _⟩ => isFalse (fun e => by cases e)
  | ⟨.string, _⟩, ⟨.int, _⟩ => isFalse (fun e => by cases e)
  | ⟨.string, _⟩, ⟨.float64, _⟩ => isFalse (fun e => by cases e)
  | ⟨.float64, _⟩, ⟨.int, _⟩ => isFalse (fun e => by cases e)
  | ⟨.float64, _⟩, ⟨.string, _⟩ => isFalse (fun e => by cases e)

/-- Memory holding `arr := []any{1, 2, 3}`, with the header of `arr`. -/
def exAnyArr : Slice × Mem Ex :=
  literal (Mem.empty Ex) .any [anyInt 1, anyInt 2, anyInt 3]

/-- Memory holding `arr := []int{1, 2, 3}`, with the header of `arr`. -/
def exIntArr : Slice × Mem Ex :=
  literal (Mem.empty Ex) tInt [1, 2, 3]

/-- Header of `arr[:1]` for a three-element `arr` that is the first array
allocated: length 1, capacity 3. -/
def exHead : Slice := ⟨some (0, 0), 1, 3⟩

/-- Header of `arr[0:2]` for the same `arr`: length 2, capacity 3. -/
def exFront : Slice := ⟨some (0, 0), 2, 3⟩

/-- Memory holding `a := []any{1, "two"}`, with the header of `a`. -/
def exA : Slice × Mem Ex :=
  literal (Mem.empty Ex) .any [anyInt 1, anyString "two"]

/-- Memory `exA` extended with `ints := []int{3, 4, 5}`, with the header of
`ints`. -/
def exInts : Slice × Mem Ex :=
  literal exA.2 tInt [3, 4, 5]

/-- Memory holding `[]string{"a", "b"}`, with its header. -/
def exStrs : Slice × Mem Ex :=
  literal (Mem.empty Ex) tString ["a", "b"]

/-- Memory `exStrs` extended with `[]int{1, 2}`, with its header. -/
def exOneTwo : Slice × Mem Ex :=
  literal exStrs.2 tInt [1, 2]

/-- Memory holding `[]int{1, 2}`, with its header. -/
def exInitial : Slice × Mem Ex :=
  literal (Mem.empty Ex) tInt [1, 2]

/-- Memory `exInitial` extended with `[]any{"a", "b"}`, with its header. -/
def exAB : Slice × Mem Ex :=
  literal exInitial.2 .any [anyString "a", anyString "b"]

/-- Memory `exInitial` extended with `[]any{3, 4}`, with its header. -/
def exThreeFour : Slice × Mem Ex :=
  literal exInitial.2 .any [anyInt 3, anyInt 4]

/-- The conversion function `func(i int) string { return "x" + strconv.Itoa(i) }`
of the tests. -/
def exConv (i : Int) : String := "x" ++ toString i

/-- Memory holding `arr := []any{1, 2, 3, 4}`, with the header of `arr`. -/
def exAnyArr4 : Slice × Mem Ex :=
  literal (Mem.empty Ex) .any [anyInt 1, anyInt 2, anyInt 3, anyInt 4]

/-- Header of `arr[:2]` for a four-element `arr` that is the first array
allocated: length 2, capacity 4. -/
def exPair : Slice := ⟨some (0, 0), 2, 4⟩

/-- Header of `arr[1:3]` for the same `arr`: offset 1, length 2, capacity 3. -/
def exMid : Slice := ⟨some (0, 1), 2, 3⟩

/-- The loop `for _, v := range s { a = append(a, ...) }` started on the slice
`b` in memory `m1` stays within the capacity of `b`: for every `j` up to
`len(s)` the loop reaches iteration `j` in a state `st` where the local slice
still has the backing array and the capacity of `b`, has `len(b) + j`
elements, and has spare capacity for the `len(s) - j` elements still to be
appended; nothing has been allocated since the loop started; an `append` of
one element in that state, when an element is still to be appended, returns
the same array and capacity with one more element and allocates nothing; and
the whole loop is the run from that state on. -/
def LoopInPlace {σ : Type} (S T : Ty L) (s : Slice)
    (body : Nat → Val L S → Frame L σ → Option (Frame L σ)) (b : Slice) (m1 : Mem L)
    (e : σ) : Prop :=
  ∀ j, j ≤ s.len → ∃ st : Frame L σ,
    forRange S s body j 0 ⟨m1, b, e⟩ = some st ∧
    forRange S s body s.len 0 ⟨m1, b, e⟩ = forRange S s body (s.len - j) j st ∧
    st.a.data = b.data ∧ st.a.cap = b.cap ∧ st.a.len = b.len + j ∧
    s.len - j ≤ st.a.cap - st.a.len ∧
    (∀ U, (st.mem U).next = (m1 U).next) ∧
    (j < s.len → ∀ y : Val L T,
      (append st.mem T st.a y).1 = { st.a with len := st.a.len + 1 } ∧
      ∀ U, ((append st.mem T st.a y).2 U).next = (st.mem U).next)

/-- Header of `arr[1:2]` for a three-element `arr` that is the first array
allocated: offset 1, length 1, capacity 2. -/
def exCell1 : Slice := ⟨some (0, 1), 1, 2⟩

/-- Memory `exAnyArr` extended with a fresh `[]any{1, 2}`, the concatenation
of `arr[0:1]` and `arr[1:2]`, with its header. -/
def exJoined : Slice × Mem Ex :=
  literal exAnyArr.2 .any [anyInt 1, anyInt 2]

/-- Full slice expression `s[lo:hi:max]`: `none` is the
slice-bounds-out-of-range panic. -/
def reslice3 (s : Slice) (lo hi max : Nat) : Option Slice :=
  if lo ≤ hi ∧ hi ≤ max ∧ max ≤ s.cap then
    some ⟨s.data.map (fun d => (d.1, d.2 + lo)), hi - lo, max - lo⟩
  else none

/-- Header of `arr[:1:1]` for an `arr` that is the first array allocated:
length 1, capacity 1, no spare capacity. -/
def exHeadFull : Slice := ⟨some (0, 0), 1, 1⟩

/-- Header of `arr[:2:2]` for an `arr` that is the first array allocated:
length 2, capacity 2, no spare capacity. -/
def exPairFull : Slice := ⟨some (0, 0), 2, 2⟩

/-- Header of `arr[0:1]` for a four-element `arr` that is the first array
allocated: offset 0, length 1, capacity 4. -/
def exFirstOf4 : Slice := ⟨some (0, 0), 1, 4⟩

/-- Header of `arr[1:2]` for the same `arr`: offset 1, length 1, capacity 3. -/
def exSecondOf4 : Slice := ⟨some (0, 1), 1, 3⟩

/-! ## Memory lemmas -/

namespace Mem

variable {L : Host}

theorem get_write_same (m : Mem L) (T : Ty L) (p j : Nat) (v : Val L T) :
    (m.write T p j v).get T p j = v := by
  simp [Mem.get, Mem.write]

theorem get_write_other (m : Mem L) (T U : Ty L) (p j q k : Nat) (v : Val L T)
    (h : ¬(U = T ∧ q = p ∧ k = j)) :
    (m.write T p j v).get U q k = m.get U q k := by
  by_cases hU : U = T
  · subst hU
    have h2 : ¬(q = p ∧ k = j) := fun h3 => h ⟨rfl, h3⟩
    simp [Mem.get, Mem.write, h2]
  · simp [Mem.get, Mem.write, Function.update_noteq hU]

theorem next_write (m : Mem L) (T U : Ty L) (p j : Nat) (v : Val L T) :
    ((m.write T p j v) U).next = (m U).next := by
  by_cases hU : U = T
  · subst hU
    simp [Mem.write]
  · simp [Mem.write, Function.update_noteq hU]

theorem get_writeList_in (m : Mem L) (T : Ty L) (p j k : Nat) (vs : List (Val L T))
    (h1 : j ≤ k) (h2 : k < j + vs.length) :
    (m.writeList T p j vs).get T p k = vs.getD (k - j) (zeroVal L T) := by
  simp [Mem.get, Mem.writeList, h1, h2]

theorem get_writeList_other (m : Mem L) (T U : Ty L) (p j q k : Nat) (vs : List (Val L T))
    (h : ¬(U = T ∧ q = p ∧ j ≤ k ∧ k < j + vs.length)) :
    (m.writeList T p j vs).get U q k = m.get U q k := by
  by_cases hU : U = T
  · subst hU
    have h2 : ¬(q = p ∧ j ≤ k ∧ k < j + vs.length) := fun h3 => h ⟨rfl, h3⟩
    simp [Mem.get, Mem.writeList, h2]
  · simp [Mem.get, Mem.writeList, Function.update_noteq hU]

theorem next_writeList (m : Mem L) (T U : Ty L) (p j : Nat) (vs : List (Val L T)) :
    ((m.writeList T p j vs) U).next = (m U).next := by
  by_cases hU : U = T
  · subst hU
    simp [Mem.writeList]
  · simp [Mem.writeList, Function.update_noteq hU]

theorem alloc_fst (m : Mem L) (T : Ty L) (init : List (Val L T)) :
    (m.alloc T init).1 = (m T).next := rfl

theorem get_alloc_new (m : Mem L) (T : Ty L) (init : List (Val L T)) (k : Nat) :
    (m.alloc T init).2.get T (m T).next k = init.getD k (zeroVal L T) := by
  simp [Mem.get, Mem.alloc]

theorem get_alloc_old (m : Mem L) (T U : Ty L) (init : List (Val L T)) (q k : Nat)
    (h : ¬(U = T ∧ q = (m T).next)) :
    (m.alloc T init).2.get U q k = m.get U q k := by
  by_cases hU : U = T
  · subst hU
    have h2 : ¬(q = (m U).next) := fun h3 => h ⟨rfl, h3⟩
    simp [Mem.get, Mem.alloc, h2]
  · simp [Mem.get, Mem.alloc, Function.update_noteq hU]

theorem next_alloc_same (m : Mem L) (T : Ty L) (init : List (Val L T)) :
    ((m.alloc T init).2 T).next = (m T).next + 1 := by
  simp [Mem.alloc]

theorem next_alloc_other (m : Mem L) (T U : Ty L) (init : List (Val L T)) (h : U ≠ T) :
    ((m.alloc T init).2 U).next = (m U).next := by
  simp [Mem.alloc, Function.update_noteq h]

theorem write_self (m : Mem L) (T : Ty L) (p j : Nat) : m.write T p j (m.get T p j) = m := by
  funext U
  by_cases hU : U = T
  · subst hU
    simp only [Mem.write, Function.update_same, Mem.get]
    have : (fun q k => if q = p ∧ k = j then (m U).cell p j else (m U).cell q k) = (m U).cell := by
      funext q k
      split
      · rename_i h
        rw [h.1, h.2]
      · rfl
    rw [this]
  · simp [Mem.write, Function.update_noteq hU]

end Mem

/-! ## Loops -/

theorem index_eq (m : Mem L) (T : Ty L) (s : Slice) (p o i : Nat)
    (hs : s.data = some (p, o)) (hi : i < s.len) :
    index m T s i = some (m.get T p (o + i)) := by
  simp [index, hs, hi]

theorem assign_eq (m : Mem L) (T : Ty L) (s : Slice) (p o i : Nat) (v : Val L T)
    (hs : s.data = some (p, o)) (hi : i < s.len) :
    assign m T s i v = some (m.write T p (o + i) v) := by
  simp [assign, hs, hi]

/-- Loop that fills a fresh destination: when every iteration amounts to
`a[i] = g v`, the loop ends with `a[j] = g s[j]` for the iterations run, and
changes no other cell. -/
theorem forRange_fill {σ : Type} (S T : Ty L) (g : Val L S → Val L T) (s : Slice)
    (body : Nat → Val L S → Frame L σ → Option (Frame L σ)) (ps os pa : Nat)
    (hs : s.data = some (ps, os)) (hne : ps ≠ pa ∨ S ≠ T)
    (hbody : ∀ i v (st : Frame L σ), st.a = ⟨some (pa, 0), s.len, s.len⟩ → i < s.len →
      st.mem.get T pa i = zeroVal L T →
      body i v st = some { st with mem := st.mem.write T pa i (g v) }) :
    ∀ (k i : Nat) (st : Frame L σ), i + k = s.len → st.a = ⟨some (pa, 0), s.len, s.len⟩ →
      (∀ j, i ≤ j → j < s.len → st.mem.get T pa j = zeroVal L T) →
      ∃ st1, forRange S s body k i st = some st1 ∧ st1.a = st.a ∧ st1.env = st.env ∧
        (∀ j, i ≤ j → j < s.len → st1.mem.get T pa j = g (st.mem.get S ps (os + j))) ∧
        (∀ U q x, ¬(U = T ∧ q = pa ∧ i ≤ x ∧ x < s.len) →
          st1.mem.get U q x = st.mem.get U q x) ∧
        (∀ U, (st1.mem U).next = (st.mem U).next) := by
  intro k
  induction k with
  | zero =>
    intro i st hik _ _
    refine ⟨st, rfl, rfl, rfl, ?_, fun _ _ _ _ => rfl, fun _ => rfl⟩
    intro j h1 h2
    omega
  | succ k ih =>
    intro i st hik ha hz
    have hi : i < s.len := by omega
    have hb := hbody i (st.mem.get S ps (os + i)) st ha hi (hz i (Nat.le_refl i) hi)
    obtain ⟨st1, h1, h2, h3, h4, h5, h6⟩ :=
      ih (i + 1) { st with mem := st.mem.write T pa i (g (st.mem.get S ps (os + i))) }
        (by omega) ha
        (by
          intro j hj1 hj2
          show (st.mem.write T pa i _).get T pa j = _
          rw [Mem.get_write_other _ _ _ _ _ _ _ _ (by omega)]
          exact hz j (by omega) hj2)
    refine ⟨st1, ?_, h2, h3, ?_, ?_, ?_⟩
    · simp only [forRange, index_eq st.mem S s ps os i hs hi, hb]
      exact h1
    · intro j hj1 hj2
      by_cases hji : j = i
      · subst hji
        rw [h5 T pa j (by omega)]
        exact Mem.get_write_same _ _ _ _ _
      · rw [h4 j (by omega) hj2]
        show g ((st.mem.write T pa i _).get S ps (os + j)) = _
        rw [Mem.get_write_other]
        rintro ⟨e1, e2, _⟩
        rcases hne with h | h
        · exact h e2
        · exact h e1
    · intro U q x hx
      rw [h5 U q x (by
        rintro ⟨e1, e2, e3, e4⟩
        exact hx ⟨e1, e2, by omega, e4⟩)]
      show (st.mem.write T pa i _).get U q x = _
      rw [Mem.get_write_other]
      rintro ⟨e1, e2, e3⟩
      exact hx ⟨e1, e2, by omega, by omega⟩
    · intro U
      rw [h6 U]
      exact Mem.next_write _ _ _ _ _ _

theorem elems_eq (m : Mem L) (T : Ty L) (s : Slice) (p o : Nat) (hs : s.data = some (p, o)) :
    elems m T s = (List.range s.len).map (fun i => m.get T p (o + i)) := by
  simp [elems, hs]

theorem elems_nil_data (m : Mem L) (T : Ty L) (s : Slice) (hs : s.data = none) :
    elems m T s = [] := by
  simp [elems, hs]

theorem length_elems (m : Mem L) (T : Ty L) (s : Slice) (hs : s.data = none → s.len = 0) :
    (elems m T s).length = s.len := by
  cases h : s.data with
  | none => simp [elems, h, hs h]
  | some d => simp [elems, h]

theorem Slice.Valid.len_of_nil {m : Mem L} {T : Ty L} {s : Slice} (h : s.Valid m T)
    (hs : s.data = none) : s.len = 0 := by
  have h1 := h.len_le_cap
  have h2 := h.nil_cap hs
  omega

theorem Mem.Extends.refl (m : Mem L) : Mem.Extends m m :=
  ⟨fun _ _ _ _ => rfl, fun _ => Nat.le_refl _⟩

theorem Mem.Extends.trans {m2 m1 m : Mem L} (h2 : Mem.Extends m2 m1) (h1 : Mem.Extends m1 m) :
    Mem.Extends m2 m :=
  ⟨fun U q x hq => by
    rw [h2.1 U q x (Nat.lt_of_lt_of_le hq (h1.2 U)), h1.1 U q x hq],
   fun U => Nat.le_trans (h1.2 U) (h2.2 U)⟩

theorem Mem.Extends.elems {m1 m : Mem L} (h : Mem.Extends m1 m) (T : Ty L) (s : Slice)
    (hs : s.Valid m T) : elems m1 T s = elems m T s := by
  cases hd : s.data with
  | none => simp [Anys.elems, hd]
  | some d =>
    obtain ⟨p, o⟩ := d
    rw [elems_eq m1 T s p o hd, elems_eq m T s p o hd]
    apply List.map_congr_left
    intro i _
    exact h.1 T p (o + i) (hs.allocated p o hd)

theorem Slice.Valid.mono {m1 m : Mem L} {T : Ty L} {s : Slice} (hs : s.Valid m T)
    (h : Mem.Extends m1 m) : s.Valid m1 T :=
  ⟨hs.len_le_cap, fun p o hd => Nat.lt_of_lt_of_le (hs.allocated p o hd) (h.2 T), hs.nil_cap⟩

theorem Mem.extends_alloc (m : Mem L) (T : Ty L) (init : List (Val L T)) :
    Mem.Extends (m.alloc T init).2 m := by
  refine ⟨fun U q x hq => ?_, fun U => ?_⟩
  · apply Mem.get_alloc_old
    rintro ⟨e1, e2⟩
    subst e1
    omega
  · by_cases hU : U = T
    · subst hU
      rw [Mem.next_alloc_same]
      omega
    · rw [Mem.next_alloc_other _ _ _ _ hU]

/-- The loop of From, Map and BackTo on a fresh `make([]T, len(s))`: the
result holds `g` of each element of `s`, in order. -/
theorem fill_spec {σ : Type} (S T : Ty L) (g : Val L S → Val L T) (m : Mem L) (e : σ)
    (s : Slice) (body : Nat → Val L S → Frame L σ → Option (Frame L σ))
    (hv : s.Valid m S) (hnil : s.isNil = false)
    (hbody : ∀ i v (st : Frame L σ), i < s.len → st.mem.get T (m T).next i = zeroVal L T →
      st.a = (make m T s.len).1 →
      body i v st = some { st with mem := st.mem.write T (m T).next i (g v) }) :
    ∃ st1, forRange S s body s.len 0 ⟨(make m T s.len).2, (make m T s.len).1, e⟩ = some st1 ∧
      st1.a = ⟨some ((m T).next, 0), s.len, s.len⟩ ∧ st1.env = e ∧
      elems st1.mem T st1.a = (elems m S s).map g ∧
      Mem.Extends st1.mem m ∧ (st1.mem T).next = (m T).next + 1 := by
  cases hd : s.data with
  | none => simp [Slice.isNil, hd] at hnil
  | some d =>
    obtain ⟨ps, os⟩ := d
    have hps := hv.allocated ps os hd
    have hne : ps ≠ (m T).next ∨ S ≠ T := by
      by_cases hST : S = T
      · subst hST
        exact Or.inl (by omega)
      · exact Or.inr hST
    have hmk : make m T s.len = (⟨some ((m T).next, 0), s.len, s.len⟩, (m.alloc T []).2) := rfl
    obtain ⟨st1, h1, h2, h3, h4, h5, h6⟩ :=
      forRange_fill S T g s body ps os (m T).next hd hne
        (fun i v st ha hi hz => hbody i v st hi hz (by rw [ha, hmk]))
        s.len 0 ⟨(make m T s.len).2, (make m T s.len).1, e⟩ (by omega) (by rw [hmk])
        (by
          intro j _ _
          show (m.alloc T []).2.get T (m T).next j = _
          rw [Mem.get_alloc_new]
          simp)
    have hext : Mem.Extends st1.mem m := by
      refine ⟨fun U q x hq => ?_, fun U => ?_⟩
      · rw [h5 U q x (by
          rintro ⟨e1, e2, _⟩
          subst e1
          omega)]
        exact (Mem.extends_alloc m T []).1 U q x hq
      · rw [h6 U]
        exact (Mem.extends_alloc m T []).2 U
    refine ⟨st1, h1, by rw [h2, hmk], h3, ?_, hext, ?_⟩
    · rw [h2, hmk, elems_eq st1.mem T _ (m T).next 0 rfl, elems_eq m S s ps os hd, List.map_map]
      apply List.map_congr_left
      intro i hi
      rw [List.mem_range] at hi
      simp only [Nat.zero_add, Function.comp]
      rw [h4 i (Nat.zero_le i) hi]
      show g ((m.alloc T []).2.get S ps (os + i)) = _
      rw [Mem.get_alloc_old]
      rintro ⟨e1, e2⟩
      rcases hne with h | h
      · exact h e2
      · exact h e1
    · rw [h6 T]
      exact Mem.next_alloc_same m T []

/-! ## From, Map, BackTo -/

theorem assign_fresh (m m1 : Mem L) (T : Ty L) (a : Slice) (n i : Nat) (v : Val L T)
    (ha : a = (make m T n).1) (hi : i < n) :
    assign m1 T a i v = some (m1.write T (m T).next i v) := by
  subst ha
  have := assign_eq m1 T (make m T n).1 (m T).next 0 i v rfl hi
  rwa [Nat.zero_add] at this

theorem From_body_eq {σ : Type} (S : Ty L) (m : Mem L) (n i : Nat) (v : Val L S)
    (st : Frame L σ) (ha : st.a = (make m .any n).1) (hi : i < n) :
    From.body S i v st = some { st with mem := st.mem.write .any (m .any).next i (box S v) } := by
  simp [From.body, assign_fresh m st.mem .any st.a n i _ ha hi]

theorem Map_body_eq {σ : Type} (T S : Ty L) (f : Val L S → Val L T) (m : Mem L) (n i : Nat)
    (v : Val L S) (st : Frame L σ) (ha : st.a = (make m T n).1) (hi : i < n) :
    Map.body T S (Func.pure f) i v st =
      some { st with mem := st.mem.write T (m T).next i (f v) } := by
  simp [Map.body, Func.pure, assign_fresh m st.mem T st.a n i _ ha hi]

theorem BackTo_body_eq {σ : Type} (T S : Ty L) (m : Mem L) (n i : Nat) (v : Val L S)
    (st : Frame L σ) (ha : st.a = (make m T n).1) (hi : i < n)
    (hz : st.mem.get T (m T).next i = zeroVal L T) :
    BackTo.body T S i v st =
      some { st with mem := st.mem.write T (m T).next i (narrow T S v) } := by
  unfold BackTo.body narrow
  cases h : assertTo T (box S v) with
  | none =>
    simp only [Option.getD_none]
    rw [← hz, Mem.write_self]
  | some t =>
    simp [assign_fresh m st.mem T st.a n i _ ha hi]

theorem valid_fresh (m1 : Mem L) (T : Ty L) (p n : Nat) (hp : p < (m1 T).next) :
    Slice.Valid m1 T ⟨some (p, 0), n, n⟩ :=
  ⟨Nat.le_refl _, fun q o h => by
    simp only [Option.some.injEq, Prod.mk.injEq] at h
    omega, fun h => by simp at h⟩

/-- Specification of `From`. -/
theorem From_spec (S : Ty L) (m : Mem L) (s : Slice) (hv : s.Valid m S) :
    ∃ a m1, From S m s = some (a, m1) ∧ a.isNil = s.isNil ∧ a.len = s.len ∧
      elems m1 .any a = (elems m S s).map (box S) ∧ a.Valid m1 .any ∧ Mem.Extends m1 m := by
  cases hn : s.isNil with
  | true =>
    have hd : s.data = none := by simpa [Slice.isNil] using hn
    refine ⟨Slice.nil, m, by simp [From, hn], rfl, (hv.len_of_nil hd).symm, ?_, ?_,
      Mem.Extends.refl m⟩
    · simp [elems, hd, Slice.nil]
    · exact ⟨Nat.le_refl _, fun p o h => by simp [Slice.nil] at h, fun _ => rfl⟩
  | false =>
    obtain ⟨st1, h1, h2, _, h4, h5, h6⟩ :=
      fill_spec S .any (box S) m () s (From.body S) hv hn
        (fun i v st hi _ ha => From_body_eq S m s.len i v st ha hi)
    refine ⟨st1.a, st1.mem, by simp [From, hn, h1], by simp [h2, Slice.isNil], by simp [h2],
      h4, ?_, h5⟩
    rw [h2]
    exact valid_fresh _ _ _ _ (by omega)

/-- Specification of `Map` for a pure conversion function. -/
theorem Map_spec {σ : Type} (T S : Ty L) (f : Val L S → Val L T) (m : Mem L) (e : σ)
    (s : Slice) (hv : s.Valid m S) :
    ∃ a m1, Map T S m e (Func.pure f) s = some (a, m1, e) ∧ a.isNil = s.isNil ∧
      a.len = s.len ∧ elems m1 T a = (elems m S s).map f ∧ a.Valid m1 T ∧
      Mem.Extends m1 m := by
  cases hn : s.isNil with
  | true =>
    have hd : s.data = none := by simpa [Slice.isNil] using hn
    refine ⟨Slice.nil, m, by simp [Map, hn], rfl, (hv.len_of_nil hd).symm, ?_, ?_,
      Mem.Extends.refl m⟩
    · simp [elems, hd, Slice.nil]
    · exact ⟨Nat.le_refl _, fun p o h => by simp [Slice.nil] at h, fun _ => rfl⟩
  | false =>
    obtain ⟨st1, h1, h2, h3, h4, h5, h6⟩ :=
      fill_spec S T f m e s (Map.body T S (Func.pure f)) hv hn
        (fun i v st hi _ ha => Map_body_eq T S f m s.len i v st ha hi)
    refine ⟨st1.a, st1.mem, by simp [Map, hn, h1, Frame.result, h3], by simp [h2, Slice.isNil],
      by simp [h2], h4, ?_, h5⟩
    rw [h2]
    exact valid_fresh _ _ _ _ (by omega)

/-- Specification of `BackTo`. -/
theorem BackTo_spec (T S : Ty L) (m : Mem L) (s : Slice) (hv : s.Valid m S) :
    ∃ a m1, BackTo T S m s = some (a, m1) ∧ a.isNil = s.isNil ∧ a.len = s.len ∧
      elems m1 T a = (elems m S s).map (narrow T S) ∧ a.Valid m1 T ∧ Mem.Extends m1 m := by
  cases hn : s.isNil with
  | true =>
    have hd : s.data = none := by simpa [Slice.isNil] using hn
    refine ⟨Slice.nil, m, by simp [BackTo, hn], rfl, (hv.len_of_nil hd).symm, ?_, ?_,
      Mem.Extends.refl m⟩
    · simp [elems, hd, Slice.nil]
    · exact ⟨Nat.le_refl _, fun p o h => by simp [Slice.nil] at h, fun _ => rfl⟩
  | false =>
    obtain ⟨st1, h1, h2, _, h4, h5, h6⟩ :=
      fill_spec S T (narrow T S) m () s (BackTo.body T S) hv hn
        (fun i v st hi hz ha => BackTo_body_eq T S m s.len i v st ha hi hz)
    refine ⟨st1.a, st1.mem, by simp [BackTo, hn, h1], by simp [h2, Slice.isNil], by simp [h2],
      h4, ?_, h5⟩
    rw [h2]
    exact valid_fresh _ _ _ _ (by omega)

theorem index_eq_getElem (m : Mem L) (T : Ty L) (s : Slice) (i : Nat) :
    index m T s i = (elems m T s)[i]? := by
  cases hd : s.data with
  | none => simp [index, elems, hd]
  | some d =>
    obtain ⟨p, o⟩ := d
    by_cases hi : i < s.len
    · simp [index, elems, hd, hi, List.getElem?_map, List.getElem?_range hi]
    · have hr : (List.range s.len)[i]? = none := by
        rw [List.getElem?_eq_none_iff]
        simp only [List.length_range]
        omega
      simp [index, elems, hd, hi, List.getElem?_map, hr]

theorem narrow_box (T : Ty L) (x : Val L T) : narrow T .any (box T x) = x := by
  cases T with
  | concrete c => simp [narrow, box, assertTo]
  | any =>
    cases x with
    | none => simp [narrow, box, assertTo, zeroVal]
    | some d => simp [narrow, box, assertTo]
  | iface i =>
    cases x with
    | none => simp [narrow, box, assertTo, zeroVal]
    | some d =>
      obtain ⟨d, h⟩ := d
      simp [narrow, box, assertTo, h]

theorem valid_literal (m : Mem L) (T : Ty L) (vs : List (Val L T)) :
    (literal m T vs).1.Valid (literal m T vs).2 T := by
  refine ⟨Nat.le_refl _, fun p o h => ?_, fun h => ?_⟩
  · simp only [literal, Option.some.injEq, Prod.mk.injEq] at h
    show p < ((m.alloc T vs).2 T).next
    rw [Mem.next_alloc_same, ← h.1, Mem.alloc_fst]
    omega
  · simp [literal] at h

theorem valid_nil (m : Mem L) (T : Ty L) : Slice.nil.Valid m T :=
  ⟨Nat.le_refl _, fun p o h => by simp [Slice.nil] at h, fun _ => rfl⟩

/-- C1. Round trip: for every element type `T` and every slice `ii` of `T`
(nil and empty included), `BackTo[T](From(ii...))` returns a slice with the
nil-ness of `ii`, the length of `ii` and the element of `ii` at every index. -/
theorem C1_roundtrip (L : Host) (T : Ty L) (m : Mem L) (ii : Slice) (hv : ii.Valid m T) :
    ∃ aa m1 r m2, From T m ii = some (aa, m1) ∧ BackTo T .any m1 aa = some (r, m2) ∧
      r.isNil = ii.isNil ∧ r.len = ii.len ∧ elems m2 T r = elems m T ii ∧
      ∀ i, index m2 T r i = index m T ii i := by
  obtain ⟨aa, m1, h1, h2, h3, h4, h5, _⟩ := From_spec T m ii hv
  obtain ⟨r, m2, k1, k2, k3, k4, _, _⟩ := BackTo_spec T .any m1 aa h5
  have he : elems m2 T r = elems m T ii := by
    rw [k4, h4, List.map_map]
    conv_rhs => rw [← List.map_id (elems m T ii)]
    apply List.map_congr_left
    intro x _
    exact narrow_box T x
  refine ⟨aa, m1, r, m2, h1, k1, by rw [k2, h2], by rw [k3, h3], he, fun i => ?_⟩
  rw [index_eq_getElem m2 T r i, index_eq_getElem m T ii i, he]

/-- Witness of C1: the round trip of `[]int{1, 2, 3}`. -/
theorem C1_roundtrip_witness :
    (literal (Mem.empty Ex) tInt [1, 2, 3]).1.Valid (literal (Mem.empty Ex) tInt [1, 2, 3]).2 tInt ∧
    ∃ aa m1 r m2,
      From tInt (literal (Mem.empty Ex) tInt [1, 2, 3]).2
        (literal (Mem.empty Ex) tInt [1, 2, 3]).1 = some (aa, m1) ∧
      BackTo tInt .any m1 aa = some (r, m2) ∧
      r.isNil = (literal (Mem.empty Ex) tInt [1, 2, 3]).1.isNil ∧
      r.len = (literal (Mem.empty Ex) tInt [1, 2, 3]).1.len ∧
      elems m2 tInt r = elems (literal (Mem.empty Ex) tInt [1, 2, 3]).2 tInt
        (literal (Mem.empty Ex) tInt [1, 2, 3]).1 ∧
      ∀ i, index m2 tInt r i = index (literal (Mem.empty Ex) tInt [1, 2, 3]).2 tInt
        (literal (Mem.empty Ex) tInt [1, 2, 3]).1 i :=
  ⟨valid_literal _ _ _, C1_roundtrip Ex tInt _ _ (valid_literal _ _ _)⟩

theorem assertTo_concrete_iff (c : L.Conc) (x : Val L .any) (t : L.El c) :
    assertTo (.concrete c) x = some t ↔ x = some ⟨c, t⟩ := by
  cases x with
  | none => simp [assertTo]
  | some d =>
    obtain ⟨tag, val⟩ := d
    by_cases h : tag = c
    · subst h
      simp only [assertTo, dite_true, Option.some.injEq]
      constructor
      · intro h
        rw [h]
      · intro h
        have h2 := Option.some.inj h
        cases h2
        rfl
    · simp only [assertTo, h, dite_false]
      constructor
      · intro h2
        cases h2
      · intro h2
        have h3 := Option.some.inj h2
        cases h3
        exact absurd rfl h

theorem narrow_of_some (T S : Ty L) (v : Val L S) (t : Val L T)
    (h : assertTo T (box S v) = some t) : narrow T S v = t := by
  simp [narrow, h]

theorem narrow_of_none (T S : Ty L) (v : Val L S) (h : assertTo T (box S v) = none) :
    narrow T S v = zeroVal L T := by
  simp [narrow, h]

/-- C2. For every target type `T` and every non-nil slice `s`, `BackTo[T](s...)`
returns a slice of length `len(s)` that holds at index `i` the asserted value
of `s[i]` when the assertion `any(s[i]).(T)` is ok and the zero value of `T`
when it is not (so a failed assertion does not stop the loop); when no
assertion is ok the result is `len(s)` zero values. For a concrete `T` the
assertion is ok exactly on the values whose dynamic type is `T`, and it yields
the boxed value. In particular `BackTo[int]` of `[1, "2", 3.0, 4]` is
`[1, 0, 0, 4]`. -/
theorem C2_BackTo_elementwise :
    (∀ (L : Host) (T S : Ty L) (m : Mem L) (s : Slice), s.Valid m S → s.isNil = false →
      ∃ r m1, BackTo T S m s = some (r, m1) ∧ r.len = s.len ∧
        (∀ i v, index m S s i = some v →
          (∀ t, assertTo T (box S v) = some t → index m1 T r i = some t) ∧
          (assertTo T (box S v) = none → index m1 T r i = some (zeroVal L T))) ∧
        ((∀ v ∈ elems m S s, assertTo T (box S v) = none) →
          elems m1 T r = List.replicate s.len (zeroVal L T))) ∧
    (∀ (L : Host) (c : L.Conc) (x : Val L .any) (t : L.El c),
      assertTo (.concrete c) x = some t ↔ x = some ⟨c, t⟩) ∧
    (BackTo tInt .any
        (literal (Mem.empty Ex) .any
          [anyInt 1, anyString "2", anyFloat 0x4008000000000000, anyInt 4]).2
        (literal (Mem.empty Ex) .any
          [anyInt 1, anyString "2", anyFloat 0x4008000000000000, anyInt 4]).1).map
      (fun r => elems r.2 tInt r.1) = some [1, 0, 0, 4] := by
  refine ⟨?_, fun L c x t => assertTo_concrete_iff c x t, by decide⟩
  intro L T S m s hv hn
  obtain ⟨r, m1, h1, _, h3, h4, _, _⟩ := BackTo_spec T S m s hv
  refine ⟨r, m1, h1, h3, ?_, ?_⟩
  · intro i v hi
    have hr : index m1 T r i = some (narrow T S v) := by
      rw [index_eq_getElem] at hi ⊢
      rw [h4, List.getElem?_map, hi]
      rfl
    exact ⟨fun t ht => by rw [hr, narrow_of_some T S v t ht],
      fun hnone => by rw [hr, narrow_of_none T S v hnone]⟩
  · intro hall
    rw [h4]
    apply List.eq_replicate_iff.mpr
    refine ⟨by rw [List.length_map, length_elems m S s (fun h => hv.len_of_nil h)], ?_⟩
    intro b hb
    obtain ⟨v, hv1, hv2⟩ := List.mem_map.mp hb
    rw [← hv2]
    exact narrow_of_none T S v (hall v hv1)

/-- Witness of C2: `BackTo[int]` of `[]any{1.5, 2.7, 3.9}` (no element is an
int). -/
theorem C2_BackTo_elementwise_witness :
    (literal (Mem.empty Ex) .any
      [anyFloat 0x3FF8000000000000, anyFloat 0x400599999999999A,
        anyFloat 0x400F333333333333]).1.Valid
      (literal (Mem.empty Ex) .any
        [anyFloat 0x3FF8000000000000, anyFloat 0x400599999999999A,
          anyFloat 0x400F333333333333]).2 .any ∧
    ∃ r m1, BackTo tInt .any
        (literal (Mem.empty Ex) .any
          [anyFloat 0x3FF8000000000000, anyFloat 0x400599999999999A,
            anyFloat 0x400F333333333333]).2
        (literal (Mem.empty Ex) .any
          [anyFloat 0x3FF8000000000000, anyFloat 0x400599999999999A,
            anyFloat 0x400F333333333333]).1 = some (r, m1) ∧
      r.len = 3 ∧ elems m1 tInt r = [0, 0, 0] := by
  refine ⟨valid_literal _ _ _, ?_⟩
  obtain ⟨r, m1, h1, h2, _, h4⟩ :=
    C2_BackTo_elementwise.1 Ex tInt .any _ _
      (valid_literal (Mem.empty Ex) .any
        [anyFloat 0x3FF8000000000000, anyFloat 0x400599999999999A,
          anyFloat 0x400F333333333333]) rfl
  refine ⟨r, m1, h1, h2, ?_⟩
  rw [h4 (by decide)]
  rfl

/-- C3 as stated fails for an interface element type: `From[any]` of
`[]any{1, nil}` returns `[1, nil]`, whose element 0 has dynamic type `int` and
whose element 1 has no dynamic type; neither has the dynamic type `any`. -/
theorem C3_From_dynamic_type_counterexample :
    (From .any (literal (Mem.empty Ex) .any [anyInt 1, none]).2
        (literal (Mem.empty Ex) .any [anyInt 1, none]).1).map
      (fun r => (elems r.2 .any r.1).map (fun y => (dynType y).map Ty.concrete)) =
      some [some tInt, none] ∧
    (some tInt : Option (Ty Ex)) ≠ some Ty.any ∧ (none : Option (Ty Ex)) ≠ some Ty.any := by
  decide

/-- C3, amended. For every element type `S` and every slice `s` of `S`,
`From(s...)` has the length of `s` and holds at every index `i` the
conversion `any(s[i])`: for a concrete `S` that is `s[i]` boxed with dynamic
type `S`; for `S = any` it is `s[i]` itself and for another interface type the
dynamic value that `s[i]` holds, nil when `s[i]` is nil. -/
theorem C3_From_elements (L : Host) (S : Ty L) (m : Mem L) (s : Slice) (hv : s.Valid m S) :
    (∃ a m1, From S m s = some (a, m1) ∧ a.len = s.len ∧
      elems m1 .any a = (elems m S s).map (box S) ∧
      ∀ i v, index m S s i = some v → index m1 .any a i = some (box S v)) ∧
    (∀ (c : L.Conc) (x : L.El c),
      box (.concrete c) x = some ⟨c, x⟩ ∧ dynType (box (.concrete c) x) = some c) ∧
    (∀ x : Val L .any, box .any x = x) ∧
    (∀ (i : L.Iface) (x : Val L (.iface i)), box (.iface i) x = x.map Subtype.val) := by
  refine ⟨?_, fun c x => ⟨rfl, rfl⟩, fun x => rfl, fun i x => rfl⟩
  obtain ⟨a, m1, h1, _, h3, h4, _, _⟩ := From_spec S m s hv
  refine ⟨a, m1, h1, h3, h4, fun i v hi => ?_⟩
  rw [index_eq_getElem] at hi ⊢
  rw [h4, List.getElem?_map, hi]
  rfl

/-- Witness of C3: `From` of `[]int{1, 2, 3}`. -/
theorem C3_From_elements_witness :
    (literal (Mem.empty Ex) tInt [1, 2, 3]).1.Valid (literal (Mem.empty Ex) tInt [1, 2, 3]).2 tInt ∧
    ∃ a m1, From tInt (literal (Mem.empty Ex) tInt [1, 2, 3]).2
        (literal (Mem.empty Ex) tInt [1, 2, 3]).1 = some (a, m1) ∧
      a.len = 3 ∧ (elems m1 .any a).map dynType = [some ExConc.int, some .int, some .int] := by
  refine ⟨valid_literal _ _ _, ?_⟩
  obtain ⟨a, m1, h1, h2, h3, _⟩ :=
    (C3_From_elements Ex tInt _ _ (valid_literal (Mem.empty Ex) tInt [1, 2, 3])).1
  refine ⟨a, m1, h1, h2, ?_⟩
  rw [h3]
  decide

/-- C4. For every pure conversion function `f : S → T` and every non-nil slice
`s` of `S`, `Map(f, s...)` returns a slice of length `len(s)` whose element at
index `i` is `f(s[i])`: its elements are the list map of `f` over those of
`s`; the caller state is untouched. -/
theorem C4_Map_elements (L : Host) (σ : Type) (T S : Ty L) (f : Val L S → Val L T)
    (m : Mem L) (e : σ) (s : Slice) (hv : s.Valid m S) (hn : s.isNil = false) :
    ∃ r m1, Map T S m e (Func.pure f) s = some (r, m1, e) ∧ r.isNil = false ∧
      r.len = s.len ∧ elems m1 T r = (elems m S s).map f ∧
      ∀ i v, index m S s i = some v → index m1 T r i = some (f v) := by
  obtain ⟨r, m1, h1, h2, h3, h4, _, _⟩ := Map_spec T S f m e s hv
  refine ⟨r, m1, h1, by rw [h2, hn], h3, h4, fun i v hi => ?_⟩
  rw [index_eq_getElem] at hi ⊢
  rw [h4, List.getElem?_map, hi]
  rfl

/-- Witness of C4: `Map` of `[]int{1, 2, 3}` with `strconv.Itoa`. -/
theorem C4_Map_elements_witness :
    (literal (Mem.empty Ex) tInt [1, 2, 3]).1.Valid (literal (Mem.empty Ex) tInt [1, 2, 3]).2 tInt ∧
    ∃ r m1, Map tString tInt (literal (Mem.empty Ex) tInt [1, 2, 3]).2 ()
        (Func.pure (fun i : Int => toString i))
        (literal (Mem.empty Ex) tInt [1, 2, 3]).1 = some (r, m1, ()) ∧
      elems m1 tString r = ["1", "2", "3"] := by
  refine ⟨valid_literal _ _ _, ?_⟩
  obtain ⟨r, m1, h1, _, _, h4, _⟩ :=
    C4_Map_elements Ex Unit tString tInt (fun i : Int => toString i) _ ()
      _ (valid_literal (Mem.empty Ex) tInt [1, 2, 3]) rfl
  refine ⟨r, m1, h1, ?_⟩
  rw [h4]
  decide

/-- A loop whose body always succeeds and keeps the local slice variable
ends, with that variable unchanged. -/
theorem forRange_keep {σ : Type} (S : Ty L) (s : Slice)
    (body : Nat → Val L S → Frame L σ → Option (Frame L σ)) (a0 : Slice)
    (hs : s.isNil = false)
    (hbody : ∀ i v (st : Frame L σ), i < s.len → st.a = a0 →
      ∃ st1, body i v st = some st1 ∧ st1.a = a0) :
    ∀ (k i : Nat) (st : Frame L σ), i + k = s.len → st.a = a0 →
      ∃ st1, forRange S s body k i st = some st1 ∧ st1.a = a0 := by
  intro k
  induction k with
  | zero =>
    intro i st _ ha
    exact ⟨st, rfl, ha⟩
  | succ k ih =>
    intro i st hik ha
    cases hd : s.data with
    | none => simp [Slice.isNil, hd] at hs
    | some d =>
      obtain ⟨ps, os⟩ := d
      have hi : i < s.len := by omega
      obtain ⟨st1, hb, ha1⟩ := hbody i (st.mem.get S ps (os + i)) st hi ha
      obtain ⟨st2, h2, ha2⟩ := ih (i + 1) st1 (by omega) ha1
      refine ⟨st2, ?_, ha2⟩
      simp only [forRange, index_eq st.mem S s ps os i hd hi, hb]
      exact h2

/-- C5. Nil preservation: `From`, `Map` (with any non-nil conversion function,
pure or not) and `BackTo` return the nil slice exactly when the input slice is
nil, and a slice of the length of the input; so an empty non-nil input gives
an empty non-nil result, which differs from the nil slice. -/
theorem C5_nil_preservation (L : Host) (σ : Type) (T S : Ty L) (m : Mem L) (e : σ)
    (f : Val L S → σ → Val L T × σ) (s : Slice) (hv : s.Valid m S) :
    (∃ r m1, From S m s = some (r, m1) ∧ (r.isNil = true ↔ s.isNil = true) ∧
      (r = Slice.nil ↔ s.isNil = true) ∧ r.len = s.len) ∧
    (∃ r m1 e1, Map T S m e (some f) s = some (r, m1, e1) ∧
      (r.isNil = true ↔ s.isNil = true) ∧ (r = Slice.nil ↔ s.isNil = true) ∧
      r.len = s.len) ∧
    (∃ r m1, BackTo T S m s = some (r, m1) ∧ (r.isNil = true ↔ s.isNil = true) ∧
      (r = Slice.nil ↔ s.isNil = true) ∧ r.len = s.len) := by
  have key : ∀ r : Slice, r.isNil = s.isNil → (s.isNil = true → r = Slice.nil) →
      ((r.isNil = true ↔ s.isNil = true) ∧ (r = Slice.nil ↔ s.isNil = true)) := by
    intro r h1 h2
    refine ⟨by rw [h1], h2 |> fun h2 => ⟨fun hr => ?_, h2⟩⟩
    rw [← h1, hr]
    rfl
  refine ⟨?_, ?_, ?_⟩
  · obtain ⟨r, m1, h1, h2, h3, _⟩ := From_spec S m s hv
    have hk := key r h2 (fun hs => by
      simp only [From, hs, if_true, Option.some.injEq, Prod.mk.injEq] at h1
      exact h1.1.symm)
    exact ⟨r, m1, h1, hk.1, hk.2, h3⟩
  · cases hn : s.isNil with
    | true =>
      have hd : s.data = none := by simpa [Slice.isNil] using hn
      exact ⟨Slice.nil, m, e, by simp [Map, hn], by simp [Slice.nil, Slice.isNil],
        by simp, (hv.len_of_nil hd).symm⟩
    | false =>
      obtain ⟨st1, h1, h2⟩ :=
        forRange_keep S s (Map.body T S (some f)) (make m T s.len).1 hn
          (fun i v st hi ha => by
            refine ⟨{ st with mem := st.mem.write T (m T).next i (f v st.env).1,
                              env := (f v st.env).2 }, ?_, ha⟩
            simp only [Map.body, assign_fresh m st.mem T st.a s.len i _ ha hi, Option.map_some'])
          s.len 0 ⟨(make m T s.len).2, (make m T s.len).1, e⟩ (by omega) rfl
      refine ⟨st1.a, st1.mem, st1.env, by simp [Map, hn, h1, Frame.result], ?_, ?_, ?_⟩
      · rw [h2]
        simp [make, Slice.isNil]
      · rw [h2]
        simp [make, Slice.nil]
      · rw [h2]
        rfl
  · obtain ⟨r, m1, h1, h2, h3, _⟩ := BackTo_spec T S m s hv
    have hk := key r h2 (fun hs => by
      simp only [BackTo, hs, if_true, Option.some.injEq, Prod.mk.injEq] at h1
      exact h1.1.symm)
    exact ⟨r, m1, h1, hk.1, hk.2, h3⟩

/-- Witness of C5: the empty non-nil slice `[]int{}`, with a conversion
function that counts its calls. -/
theorem C5_nil_preservation_witness :
    (literal (Mem.empty Ex) tInt []).1.Valid (literal (Mem.empty Ex) tInt []).2 tInt ∧
    (literal (Mem.empty Ex) tInt []).1.isNil = false ∧
    ∃ r m1 e1, Map tString tInt (literal (Mem.empty Ex) tInt []).2 (0 : Nat)
        (some (fun (i : Int) (n : Nat) => (toString i, n + 1)))
        (literal (Mem.empty Ex) tInt []).1 = some (r, m1, e1) ∧
      r.isNil = false ∧ r ≠ Slice.nil ∧ r.len = 0 := by
  refine ⟨valid_literal _ _ _, rfl, ?_⟩
  obtain ⟨r, m1, e1, h1, h2, h3, h4⟩ :=
    (C5_nil_preservation Ex Nat tString tInt _ (0 : Nat)
      (fun (i : Int) (n : Nat) => (toString i, n + 1)) _
      (valid_literal (Mem.empty Ex) tInt [])).2.1
  refine ⟨r, m1, e1, h1, ?_, ?_, h4⟩
  · cases hr : r.isNil with
    | false => rfl
    | true => exact absurd (h2.mp hr) (by decide)
  · intro hr
    exact absurd (h3.mp hr) (by decide)

/-! ## grow and the append loops -/

theorem elems_getElem (m : Mem L) (T : Ty L) (s : Slice) (p o x : Nat)
    (hs : s.data = some (p, o)) (hx : x < s.len) :
    (elems m T s)[x]? = some (m.get T p (o + x)) := by
  rw [← index_eq_getElem, index_eq m T s p o x hs hx]

theorem elems_getElem_none (m : Mem L) (T : Ty L) (s : Slice) (x : Nat)
    (hs : s.data = none → s.len = 0) (hx : s.len ≤ x) : (elems m T s)[x]? = none := by
  rw [List.getElem?_eq_none_iff, length_elems m T s hs]
  exact hx

theorem grow_noop (T : Ty L) (m : Mem L) (a : Slice) (n : Nat) (hv : a.Valid m T)
    (h : n ≤ a.cap - a.len) : grow T m a n = some (a, m) := by
  have h1 := hv.len_le_cap
  have : ¬((n : Int) - ((a.cap : Int) - (a.len : Int)) > 0) := by omega
  simp only [grow, this, if_false]

theorem grow_move (T : Ty L) (m : Mem L) (a : Slice) (n : Nat) (hv : a.Valid m T)
    (h : a.cap - a.len < n) :
    grow T m a n = some
      (⟨some ((m T).next + 1, 0), a.len, a.len + n + L.slack a.cap (a.len + n)⟩,
        ((m.alloc T []).2.alloc T
          (elems (m.alloc T []).2 T { a with len := a.cap } ++
            elems (m.alloc T []).2 T ⟨some ((m T).next, 0), n - (a.cap - a.len),
              n - (a.cap - a.len)⟩)).2) := by
  have h1 := hv.len_le_cap
  have hpos : (n : Int) - ((a.cap : Int) - (a.len : Int)) > 0 := by omega
  have hk : ((n : Int) - ((a.cap : Int) - (a.len : Int))).toNat = n - (a.cap - a.len) := by
    omega
  have hz : (elems (m.alloc T []).2 T ⟨some ((m T).next, 0), n - (a.cap - a.len),
      n - (a.cap - a.len)⟩).length = n - (a.cap - a.len) := by
    rw [length_elems]
    intro h
    simp at h
  have hlen : a.cap + (n - (a.cap - a.len)) = a.len + n := by omega
  have hnot : ¬(a.len + n ≤ a.cap) := by omega
  simp only [grow, hpos, if_true, resliceTo, Nat.le_refl, hk, make, appendSlice, appendVals,
    Mem.alloc_fst, hz, hnot, if_false, Mem.next_alloc_same, hlen]
  have hle : a.len ≤ a.len + n + L.slack a.cap (a.len + n) := by omega
  simp only [hle, if_true]

/-- Specification of `grow`: it returns a slice with the length and the
elements of `a` and room for `n` more; it returns `a` itself when the spare
capacity is already `n`, and a slice over a fresh array otherwise. -/
theorem grow_spec (T : Ty L) (m : Mem L) (a : Slice) (n : Nat) (hv : a.Valid m T) :
    ∃ b m1, grow T m a n = some (b, m1) ∧ b.len = a.len ∧ a.len + n ≤ b.cap ∧
      b.Valid m1 T ∧ Mem.Extends m1 m ∧ elems m1 T b = elems m T a ∧
      ((n ≤ a.cap - a.len ∧ b = a ∧ m1 = m) ∨
       (a.cap - a.len < n ∧ b.data = some ((m T).next + 1, 0) ∧
         b.cap = a.len + n + L.slack a.cap (a.len + n))) := by
  have hlc := hv.len_le_cap
  by_cases h : n ≤ a.cap - a.len
  · exact ⟨a, m, grow_noop T m a n hv h, rfl, by omega, hv, Mem.Extends.refl m, rfl,
      Or.inl ⟨h, rfl, rfl⟩⟩
  · have h2 : a.cap - a.len < n := by omega
    refine ⟨_, _, grow_move T m a n hv h2, rfl, by simp only; omega, ?_, ?_, ?_,
      Or.inr ⟨h2, rfl, rfl⟩⟩
    · refine ⟨by simp only; omega, fun p o hd => ?_, fun hd => by simp at hd⟩
      simp only [Option.some.injEq, Prod.mk.injEq] at hd
      rw [Mem.next_alloc_same, Mem.next_alloc_same]
      omega
    · exact Mem.Extends.trans (Mem.extends_alloc _ _ _) (Mem.extends_alloc _ _ _)
    · cases hd : a.data with
      | none =>
        have h0 : a.len = 0 := hv.len_of_nil hd
        rw [elems_nil_data m T a hd, elems_eq _ T _ ((m T).next + 1) 0 rfl]
        simp [h0]
      | some d =>
        obtain ⟨pa, oa⟩ := d
        have hpa := hv.allocated pa oa hd
        rw [elems_eq _ T _ ((m T).next + 1) 0 rfl, elems_eq m T a pa oa hd]
        apply List.map_congr_left
        intro x hx
        rw [List.mem_range] at hx
        simp only at hx
        have hnext : ((m T).next + 1) = ((m.alloc T []).2 T).next := by
          rw [Mem.next_alloc_same]
        rw [hnext, Mem.get_alloc_new, Nat.zero_add, List.getD_eq_getElem?_getD,
          List.getElem?_append_left (by
            rw [length_elems _ _ _ (by intro h; simp [hd] at h)]
            simp only
            omega),
          elems_getElem _ T _ pa oa x (by simp [hd]) (by simp only; omega)]
        simp only [Option.getD_some]
        apply Mem.get_alloc_old
        rintro ⟨_, e2⟩
        omega

theorem push_inplace {σ : Type} (T : Ty L) (st : Frame L σ) (y : Val L T) (p o l c : Nat)
    (ha : st.a = ⟨some (p, o), l, c⟩) (hl : l < c) :
    st.push T y =
      { st with a := ⟨some (p, o), l + 1, c⟩, mem := st.mem.writeList T p (o + l) [y] } := by
  have h1 : l + 1 ≤ c := hl
  simp [Frame.push, append, appendVals, ha, h1]

/-- Loop that appends within the capacity: when every iteration amounts to
`a = append(a, g v)` and no source cell is overwritten before it is read, the
loop ends with `g s[j]` after the old elements, changing no other cell. -/
theorem forRange_push {σ : Type} (S T : Ty L) (g : Val L S → Val L T) (s : Slice)
    (body : Nat → Val L S → Frame L σ → Option (Frame L σ)) (ps os pa oa len0 c : Nat)
    (hs : s.data = some (ps, os)) (hcap : len0 + s.len ≤ c)
    (hhaz : ∀ i j, i < j → j < s.len → ¬(S = T ∧ ps = pa ∧ os + j = oa + len0 + i))
    (hbody : ∀ i v (st : Frame L σ), body i v st = some (st.push T (g v))) :
    ∀ (k i : Nat) (st : Frame L σ), i + k = s.len → st.a = ⟨some (pa, oa), len0 + i, c⟩ →
      ∃ st1, forRange S s body k i st = some st1 ∧
        st1.a = ⟨some (pa, oa), len0 + s.len, c⟩ ∧ st1.env = st.env ∧
        (∀ j, i ≤ j → j < s.len →
          st1.mem.get T pa (oa + len0 + j) = g (st.mem.get S ps (os + j))) ∧
        (∀ U q x, ¬(U = T ∧ q = pa ∧ oa + len0 + i ≤ x ∧ x < oa + len0 + s.len) →
          st1.mem.get U q x = st.mem.get U q x) ∧
        (∀ U, (st1.mem U).next = (st.mem U).next) := by
  intro k
  induction k with
  | zero =>
    intro i st hik ha
    have hi : i = s.len := by omega
    refine ⟨st, rfl, by rw [ha, hi], rfl, ?_, fun _ _ _ _ => rfl, fun _ => rfl⟩
    intro j h1 h2
    omega
  | succ k ih =>
    intro i st hik ha
    have hi : i < s.len := by omega
    have hp := push_inplace T st (g (st.mem.get S ps (os + i))) pa oa (len0 + i) c ha
      (by omega)
    obtain ⟨st1, h1, h2, h3, h4, h5, h6⟩ :=
      ih (i + 1) (st.push T (g (st.mem.get S ps (os + i)))) (by omega)
        (by rw [hp]; rfl)
    have hmem : (st.push T (g (st.mem.get S ps (os + i)))).mem =
        st.mem.writeList T pa (oa + (len0 + i)) [g (st.mem.get S ps (os + i))] := by
      rw [hp]
    have henv : (st.push T (g (st.mem.get S ps (os + i)))).env = st.env := by
      rw [hp]
    refine ⟨st1, ?_, h2, by rw [h3, henv], ?_, ?_, ?_⟩
    · simp only [forRange, index_eq st.mem S s ps os i hs hi, hbody]
      exact h1
    · intro j hj1 hj2
      by_cases hji : j = i
      · subst hji
        rw [h5 T pa (oa + len0 + j) (by omega), hmem,
          Mem.get_writeList_in _ _ _ _ _ _ (by omega) (by simp only [List.length_singleton]; omega)]
        have : oa + len0 + j - (oa + (len0 + j)) = 0 := by omega
        rw [this]
        rfl
      · rw [h4 j (by omega) hj2, hmem, Mem.get_writeList_other]
        rintro ⟨e1, e2, e3, e4⟩
        simp only [List.length_singleton] at e4
        exact hhaz i j (by omega) hj2 ⟨e1, e2, by omega⟩
    · intro U q x hx
      rw [h5 U q x (by
        rintro ⟨e1, e2, e3, e4⟩
        exact hx ⟨e1, e2, by omega, e4⟩), hmem, Mem.get_writeList_other]
      rintro ⟨e1, e2, e3, e4⟩
      simp only [List.length_singleton] at e4
      exact hx ⟨e1, e2, by omega, by omega⟩
    · intro U
      rw [h6 U, hmem]
      exact Mem.next_writeList _ _ _ _ _ _

/-- The three append variants after their nil test: `grow` followed by a loop
of `a = append(a, g v)` returns the elements of `dst` followed by `g` of each
element of `s`, when no value is overwritten before it is read. Allocated
cells other than those the loop writes in place keep their value. -/
theorem push_spec {σ : Type} (S T : Ty L) (g : Val L S → Val L T) (m : Mem L) (e : σ)
    (dst s : Slice) (body : Nat → Val L S → Frame L σ → Option (Frame L σ))
    (hd : dst.Valid m T) (hv : s.Valid m S) (hnil : s.isNil = false)
    (hap : ¬Clobbers S T dst s)
    (hbody : ∀ i v (st : Frame L σ), body i v st = some (st.push T (g v))) :
    ∃ b m1 st1, grow T m dst s.len = some (b, m1) ∧
      forRange S s body s.len 0 ⟨m1, b, e⟩ = some st1 ∧ st1.env = e ∧
      st1.a = ⟨b.data, dst.len + s.len, b.cap⟩ ∧ dst.len + s.len ≤ b.cap ∧
      ((s.len ≤ dst.cap - dst.len ∧ b = dst) ∨
        (dst.cap - dst.len < s.len ∧ b.data = some ((m T).next + 1, 0) ∧
          b.cap = dst.len + s.len + L.slack dst.cap (dst.len + s.len))) ∧
      elems st1.mem T st1.a = elems m T dst ++ (elems m S s).map g ∧
      st1.a.Valid st1.mem T ∧
      (∀ U q x, q < (m U).next →
        ¬(U = T ∧ s.len ≤ dst.cap - dst.len ∧
          ∃ od, dst.data = some (q, od) ∧ od + dst.len ≤ x ∧ x < od + dst.len + s.len) →
        st1.mem.get U q x = m.get U q x) ∧
      (∀ U, (m U).next ≤ (st1.mem U).next) := by
  obtain ⟨b, m1, hg, hlen, hcapb, hvb, hext, helems, hcase⟩ := grow_spec T m dst s.len hd
  have hcase2 : (s.len ≤ dst.cap - dst.len ∧ b = dst) ∨
      (dst.cap - dst.len < s.len ∧ b.data = some ((m T).next + 1, 0) ∧
        b.cap = dst.len + s.len + L.slack dst.cap (dst.len + s.len)) := by
    rcases hcase with ⟨h1, h2, _⟩ | h
    · exact Or.inl ⟨h1, h2⟩
    · exact Or.inr h
  cases hsd : s.data with
  | none => simp [Slice.isNil, hsd] at hnil
  | some d =>
  obtain ⟨ps, os⟩ := d
  have hps := hv.allocated ps os hsd
  by_cases hn0 : s.len = 0
  · refine ⟨b, m1, ⟨m1, b, e⟩, hg, by rw [hn0]; rfl, rfl, ?_, hcapb, hcase2, ?_, ?_, ?_, hext.2⟩
    · simp only [hn0, Nat.add_zero, ← hlen]
    · simp only [helems, elems_eq m S s ps os hsd, hn0, List.range_zero, List.map_nil,
        List.append_nil]
    · exact hvb
    · intro U q x hq _
      exact hext.1 U q x hq
  · have hbd : ∃ pb ob, b.data = some (pb, ob) := by
      rcases hcase2 with ⟨h1, h2⟩ | ⟨_, h2, _⟩
      · cases hdd : dst.data with
        | none =>
          have := hd.nil_cap hdd
          omega
        | some d => exact ⟨d.1, d.2, by rw [h2, hdd]⟩
      · exact ⟨_, _, h2⟩
    obtain ⟨pb, ob, hbd⟩ := hbd
    have hb : b = ⟨some (pb, ob), dst.len + 0, b.cap⟩ := by
      rw [Nat.add_zero, ← hbd, ← hlen]
    have hhaz : ∀ i j, i < j → j < s.len →
        ¬(S = T ∧ ps = pb ∧ os + j = ob + dst.len + i) := by
      rintro i j hij hj ⟨e1, e2, e3⟩
      rcases hcase2 with ⟨h1, h2⟩ | ⟨_, h2, _⟩
      · subst h2
        subst e2
        exact hap ⟨e1, h1, ps, ob, os, hbd, hsd, i, j, hij, hj, e3⟩
      · subst e1
        rw [hbd] at h2
        simp only [Option.some.injEq, Prod.mk.injEq] at h2
        omega
    obtain ⟨st1, h1, h2, h3, h4, h5, h6⟩ :=
      forRange_push S T g s body ps os pb ob dst.len b.cap hsd hcapb hhaz hbody
        s.len 0 ⟨m1, b, e⟩ (by omega) hb
    have hfr : ∀ U q x, q < (m U).next →
        ¬(U = T ∧ s.len ≤ dst.cap - dst.len ∧
          ∃ od, dst.data = some (q, od) ∧ od + dst.len ≤ x ∧ x < od + dst.len + s.len) →
        st1.mem.get U q x = m.get U q x := by
      intro U q x hq hx
      rw [h5 U q x ?_]
      · exact hext.1 U q x hq
      · rintro ⟨e1, e2, e3, e4⟩
        subst e1
        rcases hcase2 with ⟨k1, k2⟩ | ⟨_, k2, _⟩
        · subst k2
          subst e2
          exact hx ⟨rfl, k1, ob, hbd, by omega, by omega⟩
        · rw [hbd] at k2
          simp only [Option.some.injEq, Prod.mk.injEq] at k2
          omega
    refine ⟨b, m1, st1, hg, h1, h3, by rw [h2, hbd], hcapb, hcase2, ?_, ?_, hfr,
      fun U => by rw [h6 U]; exact hext.2 U⟩
    · apply List.ext_getElem?
      intro x
      have hL : (elems m T dst).length = dst.len :=
        length_elems m T dst (fun h => hd.len_of_nil h)
      by_cases hx1 : x < dst.len
      · rw [List.getElem?_append_left (by omega), ← helems,
          elems_getElem m1 T b pb ob x hbd (by omega), h2,
          elems_getElem st1.mem T _ pb ob x rfl (by simp only; omega),
          h5 T pb (ob + x) (by omega)]
      · by_cases hx2 : x < dst.len + s.len
        · rw [List.getElem?_append_right (by omega), hL, List.getElem?_map,
            elems_getElem m S s ps os (x - dst.len) hsd (by omega), h2,
            elems_getElem st1.mem T _ pb ob x rfl (by simp only; omega)]
          have hx3 : ob + x = ob + dst.len + (x - dst.len) := by omega
          rw [hx3, h4 (x - dst.len) (by omega) (by omega)]
          show _ = some (g (m.get S ps (os + (x - dst.len))))
          rw [hext.1 S ps _ hps]
        · rw [h2, elems_getElem_none st1.mem T _ x (by intro h; simp at h) (by simp only; omega),
            List.getElem?_eq_none_iff.mpr]
          rw [List.length_append, List.length_map, hL,
            length_elems m S s (fun h => hv.len_of_nil h)]
          omega
    · rw [h2]
      refine ⟨by simp only; omega, fun p o hpo => ?_, fun h => by simp at h⟩
      simp only [Option.some.injEq, Prod.mk.injEq] at hpo
      rw [h6 T, ← hpo.1]
      exact hvb.allocated pb ob hbd

/-! ## Append, AppendMap, AppendBackTo -/

theorem AppendMap_body_eq {σ : Type} (T S : Ty L) (f : Val L S → Val L T) (i : Nat)
    (v : Val L S) (st : Frame L σ) :
    AppendMap.body T S (Func.pure f) i v st = some (st.push T (f v)) := rfl

theorem AppendBackTo_body_eq {σ : Type} (T S : Ty L) (i : Nat) (v : Val L S)
    (st : Frame L σ) : AppendBackTo.body T S i v st = some (st.push T (narrow T S v)) := by
  unfold AppendBackTo.body narrow
  cases h : assertTo T (box S v) <;> rfl

theorem not_clobbers_of_ne (S T : Ty L) (dst s : Slice) (h : S ≠ T) : ¬Clobbers S T dst s :=
  fun c => h c.1

/-- Element-wise reading of a result that is `xs` followed by `ys`. -/
theorem index_of_append (m m1 : Mem L) (S T : Ty L) (g : Val L S → Val L T) (dst s r : Slice)
    (hd : dst.Valid m T)
    (he : elems m1 T r = elems m T dst ++ (elems m S s).map g) :
    (∀ i v, index m T dst i = some v → index m1 T r i = some v) ∧
    (∀ i v, index m S s i = some v → index m1 T r (dst.len + i) = some (g v)) := by
  have hL : (elems m T dst).length = dst.len :=
    length_elems m T dst (fun h => hd.len_of_nil h)
  constructor
  · intro i v hi
    rw [index_eq_getElem] at hi ⊢
    have hlt : i < (elems m T dst).length := by
      rcases Nat.lt_or_ge i (elems m T dst).length with h | h
      · exact h
      · rw [List.getElem?_eq_none_iff.mpr h] at hi
        cases hi
    rw [he, List.getElem?_append_left hlt, hi]
  · intro i v hi
    rw [index_eq_getElem] at hi ⊢
    rw [he, List.getElem?_append_right (by omega), hL, Nat.add_sub_cancel_left,
      List.getElem?_map, hi]
    rfl

/-- Specification of `Append` on a non-nil `s`, when no value is
overwritten before it is read. -/
theorem Append_spec (S : Ty L) (m : Mem L) (dst s : Slice) (hd : dst.Valid m .any)
    (hv : s.Valid m S) (hnil : s.isNil = false) (hap : ¬Clobbers S .any dst s) :
    ∃ r m1, Append S m dst s = some (r, m1) ∧ r.len = dst.len + s.len ∧
      elems m1 .any r = elems m .any dst ++ (elems m S s).map (box S) ∧
      r.Valid m1 .any := by
  obtain ⟨b, m1, st1, h1, h2, _, h4, _, _, h7, h8, _, _⟩ :=
    push_spec S .any (box S) m () dst s (Append.body S) hd hv hnil hap (fun _ _ _ => rfl)
  refine ⟨st1.a, st1.mem, ?_, by rw [h4], h7, h8⟩
  simp only [Append, hnil, Bool.false_eq_true, if_false, h1, h2, Option.map_some']

/-- Specification of `AppendMap` on a non-nil `s`, for a pure conversion
function, when no value is overwritten before it is read. -/
theorem AppendMap_spec {σ : Type} (T S : Ty L) (f : Val L S → Val L T) (m : Mem L) (e : σ)
    (dst s : Slice) (hd : dst.Valid m T) (hv : s.Valid m S) (hnil : s.isNil = false)
    (hap : ¬Clobbers S T dst s) :
    ∃ r m1, AppendMap T S m e dst (Func.pure f) s = some (r, m1, e) ∧
      r.len = dst.len + s.len ∧ elems m1 T r = elems m T dst ++ (elems m S s).map f ∧
      r.Valid m1 T := by
  obtain ⟨b, m1, st1, h1, h2, h3, h4, _, _, h7, h8, _, _⟩ :=
    push_spec S T f m e dst s (AppendMap.body T S (Func.pure f)) hd hv hnil hap
      (AppendMap_body_eq T S f)
  refine ⟨st1.a, st1.mem, ?_, by rw [h4], h7, h8⟩
  simp only [AppendMap, hnil, Bool.false_eq_true, if_false, h1, h2, Option.map_some',
    Frame.result, h3]

/-- Specification of `AppendBackTo` on a non-nil `s`, when no value is
overwritten before it is read. -/
theorem AppendBackTo_spec (T S : Ty L) (m : Mem L) (dst s : Slice) (hd : dst.Valid m T)
    (hv : s.Valid m S) (hnil : s.isNil = false) (hap : ¬Clobbers S T dst s) :
    ∃ r m1, AppendBackTo T S m dst s = some (r, m1) ∧ r.len = dst.len + s.len ∧
      elems m1 T r = elems m T dst ++ (elems m S s).map (narrow T S) ∧ r.Valid m1 T := by
  obtain ⟨b, m1, st1, h1, h2, _, h4, _, _, h7, h8, _, _⟩ :=
    push_spec S T (narrow T S) m () dst s (AppendBackTo.body T S) hd hv hnil hap
      (AppendBackTo_body_eq T S)
  refine ⟨st1.a, st1.mem, ?_, by rw [h4], h7, h8⟩
  simp only [AppendBackTo, hnil, Bool.false_eq_true, if_false, h1, h2, Option.map_some']

theorem extends_literal (m : Mem L) (T : Ty L) (vs : List (Val L T)) :
    Mem.Extends (literal m T vs).2 m :=
  Mem.extends_alloc m T vs

theorem valid_exHead_any : exHead.Valid exAnyArr.2 .any :=
  ⟨by decide, fun p o h => by
    simp only [exHead, Option.some.injEq, Prod.mk.injEq] at h
    rw [← h.1]
    decide, fun h => by simp [exHead] at h⟩

theorem valid_exFront_any : exFront.Valid exAnyArr.2 .any :=
  ⟨by decide, fun p o h => by
    simp only [exFront, Option.some.injEq, Prod.mk.injEq] at h
    rw [← h.1]
    decide, fun h => by simp [exFront] at h⟩

theorem valid_exHead_int : exHead.Valid exIntArr.2 tInt :=
  ⟨by decide, fun p o h => by
    simp only [exHead, Option.some.injEq, Prod.mk.injEq] at h
    rw [← h.1]
    decide, fun h => by simp [exHead] at h⟩

theorem valid_exFront_int : exFront.Valid exIntArr.2 tInt :=
  ⟨by decide, fun p o h => by
    simp only [exFront, Option.some.injEq, Prod.mk.injEq] at h
    rw [← h.1]
    decide, fun h => by simp [exFront] at h⟩

/-- C6, failing input. With `arr := []any{1, 2, 3}`,
`Append(arr[:1], arr[0:2]...)` returns `[1, 1, 1]`, where the claim and the
doc comment of `Append` ("appends the provided values") give `arr[:1]`
followed by `arr[0:2]`, `[1, 1, 2]`: `grow` leaves `arr[:1]` in place (spare
capacity 2) and the first `append` writes `arr[1]` before the loop reads it.
On the same values the code gives `[1, 1, 2]` when `grow` moves the
destination (`arr[:1:1]`, no spare capacity). The run of the claim,
`Append([1, "two"], [3, 4, 5])`, is `[1, "two", 3, 4, 5]`. -/
theorem C6_Append_failing_input :
    resliceTo exAnyArr.1 1 = some exHead ∧ reslice exAnyArr.1 0 2 = some exFront ∧
    exHead.Valid exAnyArr.2 .any ∧ exFront.Valid exAnyArr.2 .any ∧ exFront.isNil = false ∧
    (Append .any exAnyArr.2 exHead exFront).map (fun r => elems r.2 .any r.1) =
      some [anyInt 1, anyInt 1, anyInt 1] ∧
    elems exAnyArr.2 .any exHead ++ (elems exAnyArr.2 .any exFront).map (box .any) =
      [anyInt 1, anyInt 1, anyInt 2] ∧
    (Append .any exAnyArr.2 exHead exFront).map (fun r => elems r.2 .any r.1) ≠
      some (elems exAnyArr.2 .any exHead ++ (elems exAnyArr.2 .any exFront).map (box .any)) ∧
    reslice3 exAnyArr.1 0 1 1 = some exHeadFull ∧
    (Append .any exAnyArr.2 exHeadFull exFront).map (fun r => elems r.2 .any r.1) =
      some [anyInt 1, anyInt 1, anyInt 2] ∧
    (Append tInt exInts.2 exA.1 exInts.1).map (fun r => elems r.2 .any r.1) =
      some [anyInt 1, anyString "two", anyInt 3, anyInt 4, anyInt 5] :=
  ⟨by decide, by decide, valid_exHead_any, valid_exFront_any, by decide, by decide, by decide,
    by decide, by decide, by decide, by decide⟩

/-- C7, failing input. With `arr := []int{1, 2, 3}` and `conv(i) = i * 10`,
`AppendMap(arr[:1], conv, arr[0:2]...)` returns `[1, 10, 100]`, where the
claim and the doc comment of `AppendMap` ("applying the conversion function to
each provided value") give `[1]` followed by `conv(1), conv(2)`,
`[1, 10, 20]`: the second iteration reads the cell the first `append` wrote.
On the same values the code gives `[1, 10, 20]` when `grow` moves the
destination (`arr[:1:1]`). The run of the claim,
`AppendMap(["a", "b"], i -> "x"+str(i), [1, 2])`, is `["a", "b", "x1", "x2"]`. -/
theorem C7_AppendMap_failing_input :
    resliceTo exIntArr.1 1 = some exHead ∧ reslice exIntArr.1 0 2 = some exFront ∧
    exHead.Valid exIntArr.2 tInt ∧ exFront.Valid exIntArr.2 tInt ∧ exFront.isNil = false ∧
    (AppendMap tInt tInt exIntArr.2 () exHead (Func.pure (fun i : Int => i * 10)) exFront).map
      (fun r => elems r.2.1 tInt r.1) = some [1, 10, 100] ∧
    elems exIntArr.2 tInt exHead ++
      (elems exIntArr.2 tInt exFront).map (fun i : Int => i * 10) = [1, 10, 20] ∧
    (AppendMap tInt tInt exIntArr.2 () exHead (Func.pure (fun i : Int => i * 10)) exFront).map
      (fun r => elems r.2.1 tInt r.1) ≠
      some (elems exIntArr.2 tInt exHead ++
        (elems exIntArr.2 tInt exFront).map (fun i : Int => i * 10)) ∧
    reslice3 exIntArr.1 0 1 1 = some exHeadFull ∧
    (AppendMap tInt tInt exIntArr.2 () exHeadFull (Func.pure (fun i : Int => i * 10))
      exFront).map (fun r => elems r.2.1 tInt r.1) = some [1, 10, 20] ∧
    (AppendMap tString tInt exOneTwo.2 () exStrs.1 (Func.pure exConv) exOneTwo.1).map
      (fun r => elems r.2.1 tString r.1) = some ["a", "b", "x1", "x2"] :=
  ⟨by decide, by decide, valid_exHead_int, valid_exFront_int, by decide, by decide, by decide,
    by decide, by decide, by decide, by decide⟩

/-- C8, failing input. With `arr := []int{1, 2, 3}`,
`AppendBackTo[int](arr[:1], arr[0:2]...)` returns `[1, 1, 1]`, where the claim
and the doc comment of `AppendBackTo` ("values that have been type asserted to
T from the provided arguments") give `[1]` followed by the elements `1, 2` of
`arr[0:2]`: the first `append` overwrites `arr[1]` before the loop reads it.
On the same values the code gives `[1, 1, 2]` when `grow` moves the
destination (`arr[:1:1]`). The runs of the claim,
`AppendBackTo([1, 2], ["a", "b"])` and `AppendBackTo([1, 2], [3, 4])`, are
`[1, 2, 0, 0]` and `[1, 2, 3, 4]`. -/
theorem C8_AppendBackTo_failing_input :
    resliceTo exIntArr.1 1 = some exHead ∧ reslice exIntArr.1 0 2 = some exFront ∧
    exHead.Valid exIntArr.2 tInt ∧ exFront.Valid exIntArr.2 tInt ∧ exFront.isNil = false ∧
    (AppendBackTo tInt tInt exIntArr.2 exHead exFront).map (fun r => elems r.2 tInt r.1) =
      some [1, 1, 1] ∧
    elems exIntArr.2 tInt exHead ++ (elems exIntArr.2 tInt exFront).map (narrow tInt tInt) =
      [1, 1, 2] ∧
    (AppendBackTo tInt tInt exIntArr.2 exHead exFront).map (fun r => elems r.2 tInt r.1) ≠
      some (elems exIntArr.2 tInt exHead ++
        (elems exIntArr.2 tInt exFront).map (narrow tInt tInt)) ∧
    reslice3 exIntArr.1 0 1 1 = some exHeadFull ∧
    (AppendBackTo tInt tInt exIntArr.2 exHeadFull exFront).map
      (fun r => elems r.2 tInt r.1) = some [1, 1, 2] ∧
    (AppendBackTo tInt .any exAB.2 exInitial.1 exAB.1).map (fun r => elems r.2 tInt r.1) =
      some [1, 2, 0, 0] ∧
    (AppendBackTo tInt .any exThreeFour.2 exInitial.1 exThreeFour.1).map
      (fun r => elems r.2 tInt r.1) = some [1, 2, 3, 4] :=
  ⟨by decide, by decide, valid_exHead_int, valid_exFront_int, by decide, by decide, by decide,
    by decide, by decide, by decide, by decide, by decide⟩

/-- C9. Nil short-circuit of the append variants: when `values` is the nil
slice, `Append(dst)`, `AppendMap(dst, conv)` (for every `conv`, nil included)
and `AppendBackTo(dst)` return the header `dst` itself (same backing array
and offset, same length, same capacity, same nil-ness) and leave the memory
and the caller state as they were: nothing is allocated, copied or written. -/
theorem C9_append_nil_values (L : Host) (σ : Type) (T S : Ty L) (m : Mem L) (e : σ)
    (conv : Func L σ S T) (dst values : Slice) (hnil : values.isNil = true) :
    Append S m dst values = some (dst, m) ∧
    AppendMap T S m e dst conv values = some (dst, m, e) ∧
    AppendBackTo T S m dst values = some (dst, m) ∧
    (∀ r m1, Append S m dst values = some (r, m1) →
      r.data = dst.data ∧ r.len = dst.len ∧ r.cap = dst.cap ∧ r.isNil = dst.isNil ∧
      ∀ U, (m1 U).next = (m U).next) := by
  have h1 : Append S m dst values = some (dst, m) := by simp [Append, hnil]
  refine ⟨h1, by simp [AppendMap, hnil], by simp [AppendBackTo, hnil], ?_⟩
  intro r m1 hr
  rw [h1] at hr
  simp only [Option.some.injEq, Prod.mk.injEq] at hr
  rw [← hr.1, ← hr.2]
  exact ⟨rfl, rfl, rfl, rfl, fun _ => rfl⟩

/-- Witness of C9: `Append[int]([]int{1, 2})`, `AppendMap` and `AppendBackTo`
on `[]int{1, 2}` with no values. -/
theorem C9_append_nil_values_witness :
    Slice.nil.isNil = true ∧
    AppendMap tInt tString exInitial.2 () exInitial.1 (Func.pure (fun _ => (0 : Int)))
      Slice.nil = some (exInitial.1, exInitial.2, ()) ∧
    AppendBackTo tInt tInt exInitial.2 exInitial.1 Slice.nil =
      some (exInitial.1, exInitial.2) :=
  ⟨rfl,
    (C9_append_nil_values Ex Unit tInt tString exInitial.2 () (Func.pure (fun _ => (0 : Int)))
      exInitial.1 Slice.nil rfl).2.1,
    (C9_append_nil_values Ex Unit tInt tInt exInitial.2 () none
      exInitial.1 Slice.nil rfl).2.2.1⟩

/-- C10. `Map` and `AppendMap` do not call the conversion function when
`values` has no element (nil or empty): the call returns, with the caller
state untouched whatever effect `conv` has, and with the result it has for a
nil `conv` (which panics when called). `Map` returns nil and `AppendMap`
returns `dst` on a nil input; in particular both return for a nil `conv` with
a nil input. -/
theorem C10_conv_not_called (L : Host) (σ : Type) (T S : Ty L) (m : Mem L) (e : σ)
    (conv : Func L σ S T) (dst values : Slice) (hlen : values.len = 0)
    (hd : dst.len ≤ dst.cap) :
    (∃ r m1, Map T S m e conv values = some (r, m1, e) ∧ r.len = 0) ∧
    Map T S m e conv values = Map T S m e none values ∧
    AppendMap T S m e dst conv values = some (dst, m, e) ∧
    AppendMap T S m e dst conv values = AppendMap T S m e dst none values ∧
    (values.isNil = true → Map T S m e conv values = some (Slice.nil, m, e)) ∧
    Map T S m e none Slice.nil = some (Slice.nil, m, e) ∧
    AppendMap T S m e dst none Slice.nil = some (dst, m, e) := by
  have hmap : ∀ c : Func L σ S T, Map T S m e c values =
      if values.isNil then some (Slice.nil, m, e)
      else some ((make m T 0).1, (make m T 0).2, e) := by
    intro c
    simp only [Map, hlen, forRange, Option.map_some', Frame.result]
  have hgrow : grow T m dst ((0 : Nat) : Int) = some (dst, m) := by
    have : ¬(((0 : Nat) : Int) - ((dst.cap : Int) - (dst.len : Int)) > 0) := by omega
    simp only [grow, this, if_false]
  have happ : ∀ c : Func L σ S T, AppendMap T S m e dst c values = some (dst, m, e) := by
    intro c
    cases hn : values.isNil with
    | true => simp [AppendMap, hn]
    | false =>
      simp only [AppendMap, hn, Bool.false_eq_true, if_false, hlen, hgrow, forRange,
        Option.map_some', Frame.result]
  refine ⟨?_, by rw [hmap conv, hmap none], happ conv, by rw [happ conv, happ none], ?_,
    by simp [Map, Slice.nil, Slice.isNil], by simp [AppendMap, Slice.nil, Slice.isNil]⟩
  · rw [hmap conv]
    cases values.isNil with
    | true => exact ⟨Slice.nil, m, rfl, rfl⟩
    | false => exact ⟨(make m T 0).1, (make m T 0).2, rfl, rfl⟩
  · intro hn
    rw [hmap conv, hn]
    rfl

/-- Witness of C10: with a conversion function that counts its calls, `Map`
and `AppendMap` on the empty non-nil `[]int{}` leave the count at 0. -/
theorem C10_conv_not_called_witness :
    (literal exStrs.2 tInt []).1.len = 0 ∧ exStrs.1.len ≤ exStrs.1.cap ∧
    (∃ r m1, Map tString tInt (literal exStrs.2 tInt []).2 (0 : Nat)
        (some (fun (i : Int) (n : Nat) => (exConv i, n + 1)))
        (literal exStrs.2 tInt []).1 = some (r, m1, 0) ∧ r.len = 0) ∧
    AppendMap tString tInt (literal exStrs.2 tInt []).2 (0 : Nat) exStrs.1
        (some (fun (i : Int) (n : Nat) => (exConv i, n + 1)))
        (literal exStrs.2 tInt []).1 = some (exStrs.1, (literal exStrs.2 tInt []).2, 0) :=
  ⟨rfl, by decide,
    (C10_conv_not_called Ex Nat tString tInt (literal exStrs.2 tInt []).2 (0 : Nat)
      (some (fun (i : Int) (n : Nat) => (exConv i, n + 1))) exStrs.1
      (literal exStrs.2 tInt []).1 rfl (by decide)).1,
    (C10_conv_not_called Ex Nat tString tInt (literal exStrs.2 tInt []).2 (0 : Nat)
      (some (fun (i : Int) (n : Nat) => (exConv i, n + 1))) exStrs.1
      (literal exStrs.2 tInt []).1 rfl (by decide)).2.2.1⟩

/-! ## Headers along the append loops -/

theorem push_inplace_env {σ : Type} (T : Ty L) (st : Frame L σ) (e1 : σ) (y : Val L T)
    (p o l c : Nat) (ha : st.a = ⟨some (p, o), l, c⟩) (hl : l < c) :
    ({ st with env := e1 } : Frame L σ).push T y =
      { a := ⟨some (p, o), l + 1, c⟩, mem := st.mem.writeList T p (o + l) [y], env := e1 } :=
  push_inplace T { st with env := e1 } y p o l c ha hl

/-- Splitting a loop: `j + k` iterations from index `i` are `j` iterations
from `i` followed by `k` iterations from `i + j`. -/
theorem forRange_split {σ : Type} (S : Ty L) (s : Slice)
    (body : Nat → Val L S → Frame L σ → Option (Frame L σ)) :
    ∀ (j k i : Nat) (st : Frame L σ),
      forRange S s body (j + k) i st =
        (forRange S s body j i st).bind (fun st1 => forRange S s body k (i + j) st1) := by
  intro j
  induction j with
  | zero =>
    intro k i st
    simp [forRange]
  | succ j ih =>
    intro k i st
    have h1 : j + 1 + k = (j + k) + 1 := by omega
    rw [h1]
    simp only [forRange]
    cases hx : index st.mem S s i with
    | none => rfl
    | some v =>
      simp only
      cases hb : body i v st with
      | none => rfl
      | some st1 =>
        simp only
        rw [ih k (i + 1) st1]
        have h2 : i + 1 + j = i + (j + 1) := by omega
        rw [h2]

/-- Headers along a loop of appends within the capacity: whatever the values
read and appended, after `k` iterations the local slice has the same backing
array and capacity and `k` more elements, and nothing was allocated. -/
theorem forRange_push_header {σ : Type} (S T : Ty L) (s : Slice)
    (body : Nat → Val L S → Frame L σ → Option (Frame L σ)) (pa oa len0 c : Nat)
    (hs : s.isNil = false) (hcap : len0 + s.len ≤ c)
    (hbody : ∀ i v (st : Frame L σ), ∃ y e1,
      body i v st = some (({ st with env := e1 } : Frame L σ).push T y)) :
    ∀ (k i : Nat) (st : Frame L σ), i + k ≤ s.len → st.a = ⟨some (pa, oa), len0 + i, c⟩ →
      ∃ st1, forRange S s body k i st = some st1 ∧
        st1.a = ⟨some (pa, oa), len0 + i + k, c⟩ ∧
        (∀ U, (st1.mem U).next = (st.mem U).next) := by
  intro k
  induction k with
  | zero =>
    intro i st _ ha
    exact ⟨st, rfl, by rw [ha]; rfl, fun _ => rfl⟩
  | succ k ih =>
    intro i st hik ha
    cases hd : s.data with
    | none => simp [Slice.isNil, hd] at hs
    | some d =>
      obtain ⟨ps, os⟩ := d
      have hi : i < s.len := by omega
      obtain ⟨y, e1, hb⟩ := hbody i (st.mem.get S ps (os + i)) st
      have hp := push_inplace_env T st e1 y pa oa (len0 + i) c ha (by omega)
      obtain ⟨st1, h1, h2, h3⟩ :=
        ih (i + 1) (({ st with env := e1 } : Frame L σ).push T y) (by omega) (by rw [hp]; rfl)
      refine ⟨st1, ?_, ?_, ?_⟩
      · simp only [forRange, index_eq st.mem S s ps os i hd hi, hb]
        exact h1
      · rw [h2]
        have : len0 + (i + 1) + k = len0 + i + (k + 1) := by omega
        rw [this]
      · intro U
        rw [h3 U, hp]
        exact Mem.next_writeList _ _ _ _ _ _

/-- The append variants after their nil test, headers only: `grow` returns,
and after any number `j` of iterations of the loop the local slice has the
backing array and the capacity that `grow` returned and `len(dst) + j`
elements, with nothing allocated by the loop. This holds for every content of
the memory. -/
theorem push_header_spec {σ : Type} (S T : Ty L) (m : Mem L) (e : σ) (dst s : Slice)
    (body : Nat → Val L S → Frame L σ → Option (Frame L σ))
    (hd : dst.Valid m T) (hnil : s.isNil = false)
    (hbody : ∀ i v (st : Frame L σ), ∃ y e1,
      body i v st = some (({ st with env := e1 } : Frame L σ).push T y)) :
    ∃ b m1, grow T m dst s.len = some (b, m1) ∧ b.len = dst.len ∧
      dst.len + s.len ≤ b.cap ∧
      ((s.len ≤ dst.cap - dst.len ∧ b = dst ∧ m1 = m) ∨
        (dst.cap - dst.len < s.len ∧ b.data = some ((m T).next + 1, 0) ∧
          b.cap = dst.len + s.len + L.slack dst.cap (dst.len + s.len))) ∧
      ∀ j, j ≤ s.len → ∃ st1, forRange S s body j 0 ⟨m1, b, e⟩ = some st1 ∧
        st1.a = ⟨b.data, dst.len + j, b.cap⟩ ∧ ∀ U, (st1.mem U).next = (m1 U).next := by
  obtain ⟨b, m1, hg, hlen, hcapb, _, _, _, hcase⟩ := grow_spec T m dst s.len hd
  refine ⟨b, m1, hg, hlen, hcapb, hcase, ?_⟩
  intro j hj
  cases j with
  | zero =>
    refine ⟨⟨m1, b, e⟩, rfl, ?_, fun _ => rfl⟩
    simp only [Nat.add_zero, ← hlen]
  | succ j =>
    have hbd : ∃ pb ob, b.data = some (pb, ob) := by
      rcases hcase with ⟨h1, h2, _⟩ | ⟨_, h2, _⟩
      · cases hdd : dst.data with
        | none =>
          have := hd.nil_cap hdd
          omega
        | some d => exact ⟨d.1, d.2, by rw [h2, hdd]⟩
      · exact ⟨_, _, h2⟩
    obtain ⟨pb, ob, hbd⟩ := hbd
    obtain ⟨st1, h1, h2, h3⟩ :=
      forRange_push_header S T s body pb ob dst.len b.cap hnil hcapb hbody (j + 1) 0
        ⟨m1, b, e⟩ (by omega) (by
          show b = _
          rw [Nat.add_zero, ← hbd, ← hlen])
    refine ⟨st1, h1, ?_, h3⟩
    rw [h2, hbd, Nat.add_zero]

theorem Append_body_push {σ : Type} (S : Ty L) (i : Nat) (v : Val L S) (st : Frame L σ) :
    ∃ y e1, Append.body S i v st = some (({ st with env := e1 } : Frame L σ).push .any y) :=
  ⟨box S v, st.env, rfl⟩

theorem AppendMap_body_push {σ : Type} (T S : Ty L) (f : Val L S → σ → Val L T × σ) (i : Nat)
    (v : Val L S) (st : Frame L σ) :
    ∃ y e1, AppendMap.body T S (some f) i v st =
      some (({ st with env := e1 } : Frame L σ).push T y) :=
  ⟨(f v st.env).1, (f v st.env).2, rfl⟩

theorem AppendBackTo_body_push {σ : Type} (T S : Ty L) (i : Nat) (v : Val L S)
    (st : Frame L σ) :
    ∃ y e1, AppendBackTo.body T S i v st =
      some (({ st with env := e1 } : Frame L σ).push T y) :=
  ⟨narrow T S v, st.env, AppendBackTo_body_eq T S i v st⟩

/-- Header of the result of the append variants on a non-nil `s`, for every
content of the memory: the length is `len(dst) + len(s)` and the result is
nil exactly when `dst` is nil and `s` is empty. -/
theorem push_final_header {σ : Type} (S T : Ty L) (m : Mem L) (e : σ) (dst s : Slice)
    (body : Nat → Val L S → Frame L σ → Option (Frame L σ))
    (hd : dst.Valid m T) (hnil : s.isNil = false)
    (hbody : ∀ i v (st : Frame L σ), ∃ y e1,
      body i v st = some (({ st with env := e1 } : Frame L σ).push T y)) :
    ∃ b m1 st1, grow T m dst s.len = some (b, m1) ∧
      forRange S s body s.len 0 ⟨m1, b, e⟩ = some st1 ∧
      st1.a.len = dst.len + s.len ∧ dst.len + s.len ≤ st1.a.cap ∧
      (st1.a.isNil = true ↔ dst.isNil = true ∧ s.len = 0) := by
  obtain ⟨b, m1, hg, _, hcapb, hcase, hloop⟩ :=
    push_header_spec S T m e dst s body hd hnil hbody
  obtain ⟨st1, h1, h2, _⟩ := hloop s.len (Nat.le_refl _)
  refine ⟨b, m1, st1, hg, h1, by rw [h2], by rw [h2]; exact hcapb, ?_⟩
  rw [h2]
  simp only [Slice.isNil]
  rcases hcase with ⟨k1, k2, _⟩ | ⟨k1, k2, _⟩
  · rw [k2]
    constructor
    · intro hn
      have hdn : dst.data = none := by simpa using hn
      have := hd.nil_cap hdn
      exact ⟨hn, by omega⟩
    · intro hn
      exact hn.1
  · rw [k2]
    constructor
    · intro hn
      simp at hn
    · rintro ⟨_, h0⟩
      omega

/-- Header of the result of `Append`, for every valid input (nil `values`
and overlapping slices included). -/
theorem Append_header (S : Ty L) (m : Mem L) (dst s : Slice) (hd : dst.Valid m .any)
    (hs : s.data = none → s.len = 0) :
    ∃ r m1, Append S m dst s = some (r, m1) ∧ r.len = dst.len + s.len ∧
      (r.isNil = true ↔ dst.isNil = true ∧ s.len = 0) := by
  cases hn : s.isNil with
  | true =>
    have h0 : s.len = 0 := hs (by simpa [Slice.isNil] using hn)
    exact ⟨dst, m, by simp [Append, hn], by omega, by simp [h0]⟩
  | false =>
    obtain ⟨b, m1, st1, h1, h2, h3, _, h5⟩ :=
      push_final_header S .any m () dst s (Append.body S) hd hn (Append_body_push S)
    refine ⟨st1.a, st1.mem, ?_, h3, h5⟩
    simp only [Append, hn, Bool.false_eq_true, if_false, h1, h2, Option.map_some']

/-- Header of the result of `AppendMap` with a non-nil conversion function,
for every valid input. -/
theorem AppendMap_header {σ : Type} (T S : Ty L) (f : Val L S → σ → Val L T × σ) (m : Mem L)
    (e : σ) (dst s : Slice) (hd : dst.Valid m T) (hs : s.data = none → s.len = 0) :
    ∃ r m1 e1, AppendMap T S m e dst (some f) s = some (r, m1, e1) ∧
      r.len = dst.len + s.len ∧ (r.isNil = true ↔ dst.isNil = true ∧ s.len = 0) := by
  cases hn : s.isNil with
  | true =>
    have h0 : s.len = 0 := hs (by simpa [Slice.isNil] using hn)
    exact ⟨dst, m, e, by simp [AppendMap, hn], by omega, by simp [h0]⟩
  | false =>
    obtain ⟨b, m1, st1, h1, h2, h3, _, h5⟩ :=
      push_final_header S T m e dst s (AppendMap.body T S (some f)) hd hn
        (AppendMap_body_push T S f)
    refine ⟨st1.a, st1.mem, st1.env, ?_, h3, h5⟩
    simp only [AppendMap, hn, Bool.false_eq_true, if_false, h1, h2, Option.map_some',
      Frame.result]

/-- Header of the result of `AppendBackTo`, for every valid input. -/
theorem AppendBackTo_header (T S : Ty L) (m : Mem L) (dst s : Slice) (hd : dst.Valid m T)
    (hs : s.data = none → s.len = 0) :
    ∃ r m1, AppendBackTo T S m dst s = some (r, m1) ∧ r.len = dst.len + s.len ∧
      (r.isNil = true ↔ dst.isNil = true ∧ s.len = 0) := by
  cases hn : s.isNil with
  | true =>
    have h0 : s.len = 0 := hs (by simpa [Slice.isNil] using hn)
    exact ⟨dst, m, by simp [AppendBackTo, hn], by omega, by simp [h0]⟩
  | false =>
    obtain ⟨b, m1, st1, h1, h2, h3, _, h5⟩ :=
      push_final_header S T m () dst s (AppendBackTo.body T S) hd hn
        (AppendBackTo_body_push T S)
    refine ⟨st1.a, st1.mem, ?_, h3, h5⟩
    simp only [AppendBackTo, hn, Bool.false_eq_true, if_false, h1, h2, Option.map_some']

/-! ## Length, order, capacity and safety of the six functions -/

theorem valid_mk (m : Mem L) (T : Ty L) (p o l c : Nat) (h1 : l ≤ c) (h2 : p < (m T).next) :
    Slice.Valid m T ⟨some (p, o), l, c⟩ :=
  ⟨h1, fun q o2 h => by
    simp only [Option.some.injEq, Prod.mk.injEq] at h
    omega, fun h => by simp at h⟩

theorem index_nil (m : Mem L) (T : Ty L) (s : Slice) (i : Nat) (hn : s.isNil = true) :
    index m T s i = none := by
  have : s.data = none := by simpa [Slice.isNil] using hn
  simp [index, this]

/-- C11, failing input. With `arr := []any{1, 2, 3, 4}`,
`Append(arr[:2], arr[1:3]...)` has length `2 + 2` but holds 2 at output index
`len(dst) + 1 = 3`, where input index 1 of `values` holds 3: the first
`append` writes `arr[2]` before the loop reads it. On the same values the
code maps index 1 to index 3 when `grow` moves the destination (`arr[:2:2]`,
no spare capacity). -/
theorem C11_order_failing_input :
    resliceTo exAnyArr4.1 2 = some exPair ∧ reslice exAnyArr4.1 1 3 = some exMid ∧
    index exAnyArr4.2 .any exMid 1 = some (anyInt 3) ∧
    (Append .any exAnyArr4.2 exPair exMid).map (fun r => r.1.len) = some (2 + 2) ∧
    (Append .any exAnyArr4.2 exPair exMid).map (fun r => index r.2 .any r.1 (exPair.len + 1)) =
      some (some (anyInt 2)) ∧
    (Append .any exAnyArr4.2 exPair exMid).map (fun r => elems r.2 .any r.1) =
      some [anyInt 1, anyInt 2, anyInt 2, anyInt 2] ∧
    reslice3 exAnyArr4.1 0 2 2 = some exPairFull ∧
    (Append .any exAnyArr4.2 exPairFull exMid).map
      (fun r => index r.2 .any r.1 (exPairFull.len + 1)) = some (some (anyInt 3)) := by
  decide

theorem forRange_env {σ : Type} (S : Ty L) (s : Slice)
    (body : Nat → Val L S → Frame L σ → Option (Frame L σ))
    (hbody : ∀ i v (st st1 : Frame L σ), body i v st = some st1 → st1.env = st.env) :
    ∀ (k i : Nat) (st st1 : Frame L σ), forRange S s body k i st = some st1 →
      st1.env = st.env := by
  intro k
  induction k with
  | zero =>
    intro i st st1 h
    simp only [forRange, Option.some.injEq] at h
    rw [h]
  | succ k ih =>
    intro i st st1 h
    simp only [forRange] at h
    cases hx : index st.mem S s i with
    | none => rw [hx] at h; cases h
    | some v =>
      rw [hx] at h
      simp only at h
      cases hb : body i v st with
      | none => rw [hb] at h; cases h
      | some st2 =>
        rw [hb] at h
        simp only at h
        rw [ih (i + 1) st2 st1 h, hbody i v st st2 hb]

/-- Header of the result of `AppendMap` with a pure conversion function, for
every valid input: the caller state is returned as it was. -/
theorem AppendMap_header_pure {σ : Type} (T S : Ty L) (conv : Val L S → Val L T) (m : Mem L)
    (e : σ) (dst s : Slice) (hd : dst.Valid m T) (hs : s.data = none → s.len = 0) :
    ∃ r m1, AppendMap T S m e dst (Func.pure conv) s = some (r, m1, e) ∧
      r.len = dst.len + s.len ∧ (r.isNil = true ↔ dst.isNil = true ∧ s.len = 0) := by
  cases hn : s.isNil with
  | true =>
    have h0 : s.len = 0 := hs (by simpa [Slice.isNil] using hn)
    exact ⟨dst, m, by simp [AppendMap, hn], by omega, by simp [h0]⟩
  | false =>
    obtain ⟨b, m1, st1, h1, h2, h3, _, h5⟩ :=
      push_final_header S T m e dst s (AppendMap.body T S (Func.pure conv)) hd hn
        (AppendMap_body_push T S (fun v e => (conv v, e)))
    have henv : st1.env = e :=
      forRange_env S s (AppendMap.body T S (Func.pure conv))
        (fun i v st st2 hb => by
          rw [AppendMap_body_eq] at hb
          simp only [Option.some.injEq] at hb
          rw [← hb]
          rfl)
        s.len 0 ⟨m1, b, e⟩ st1 h2
    refine ⟨st1.a, st1.mem, ?_, h3, h5⟩
    simp only [AppendMap, hn, Bool.false_eq_true, if_false, h1, h2, Option.map_some',
      Frame.result, henv]

/-- C12. `From` is `Map` with the boxing function `func(v S) any { return
any(v) }`: for every element type `S` and every slice `s` of `S` (nil and
empty included), run from the same memory the two calls return the same
result; and run one after the other, as in `ExampleFrom`, they return slices
with the same nil-ness, the same length and the same elements. -/
theorem C12_From_is_Map_box (L : Host) (σ : Type) (S : Ty L) (m : Mem L) (e : σ) (s : Slice)
    (hv : s.Valid m S) :
    Map .any S m () (Func.pure (box S)) s = (From S m s).map (fun r => (r.1, r.2, ())) ∧
    ∃ x m1 y m2, From S m s = some (x, m1) ∧
      Map .any S m1 e (Func.pure (box S)) s = some (y, m2, e) ∧
      y.isNil = x.isNil ∧ y.len = x.len ∧ elems m2 .any y = elems m1 .any x ∧
      elems m2 .any x = elems m1 .any x := by
  constructor
  · have hb : Map.body (σ := Unit) .any S (Func.pure (box S)) = From.body S := by
      funext i v st
      rfl
    unfold Map From
    cases s.isNil with
    | true => rfl
    | false =>
      simp only [Bool.false_eq_true, if_false, hb, Option.map_map]
      rfl
  · obtain ⟨x, m1, h1, h2, h3, h4, h5, h6⟩ := From_spec S m s hv
    obtain ⟨y, m2, k1, k2, k3, k4, _, k6⟩ :=
      Map_spec .any S (box S) m1 e s (hv.mono h6)
    refine ⟨x, m1, y, m2, h1, k1, by rw [k2, h2], by rw [k3, h3], ?_, k6.elems .any x h5⟩
    rw [k4, h4, h6.elems S s hv]

/-- Witness of C12: `From` and `Map` with the boxing function on
`[]int{3, 4, 5}`. -/
theorem C12_From_is_Map_box_witness :
    exInts.1.Valid exInts.2 tInt ∧
    Map .any tInt exInts.2 () (Func.pure (box tInt)) exInts.1 =
      (From tInt exInts.2 exInts.1).map (fun r => (r.1, r.2, ())) ∧
    (From tInt exInts.2 exInts.1).map (fun r => elems r.2 .any r.1) =
      some [anyInt 3, anyInt 4, anyInt 5] :=
  ⟨valid_literal _ _ _,
    (C12_From_is_Map_box Ex Unit tInt exInts.2 () exInts.1 (valid_literal _ _ _)).1,
    by decide⟩

/-- The loops of the append variants stay within the capacity returned by
`grow`, for every valid destination and every content of the memory. -/
theorem loopInPlace_of_grow {σ : Type} (S T : Ty L) (m : Mem L) (e : σ) (dst s : Slice)
    (body : Nat → Val L S → Frame L σ → Option (Frame L σ))
    (hd : dst.Valid m T) (hnil : s.isNil = false)
    (hbody : ∀ i v (st : Frame L σ), ∃ y e1,
      body i v st = some (({ st with env := e1 } : Frame L σ).push T y)) :
    ∃ b m1, grow T m dst s.len = some (b, m1) ∧ b.len = dst.len ∧
      s.len ≤ b.cap - b.len ∧
      ((s.len ≤ dst.cap - dst.len ∧ b = dst ∧ m1 = m) ∨
        (dst.cap - dst.len < s.len ∧ b.data = some ((m T).next + 1, 0) ∧
          b.cap = dst.len + s.len + L.slack dst.cap (dst.len + s.len))) ∧
      LoopInPlace S T s body b m1 e := by
  obtain ⟨b, m1, hg, hlen, hcapb, hcase, hloop⟩ :=
    push_header_spec S T m e dst s body hd hnil hbody
  refine ⟨b, m1, hg, hlen, by omega, hcase, ?_⟩
  intro j hj
  obtain ⟨st, h1, h2, h3⟩ := hloop j hj
  refine ⟨st, h1, ?_, by rw [h2], by rw [h2], by rw [h2, hlen], by rw [h2]; simp only; omega,
    h3, ?_⟩
  · have hsplit := forRange_split S s body j (s.len - j) 0 ⟨m1, b, e⟩
    rw [Nat.add_sub_cancel' hj, h1, Nat.zero_add] at hsplit
    exact hsplit
  · intro hjl y
    cases hbd : b.data with
    | none =>
      exfalso
      rcases hcase with ⟨k1, k2, _⟩ | ⟨_, k2, _⟩
      · rw [k2] at hbd
        have := hd.nil_cap hbd
        omega
      · rw [hbd] at k2
        cases k2
    | some d =>
      obtain ⟨pb, ob⟩ := d
      have ha : st.a = ⟨some (pb, ob), dst.len + j, b.cap⟩ := by rw [h2, hbd]
      have hle : dst.len + j + 1 ≤ b.cap := by omega
      constructor
      · simp [append, appendVals, ha, hle]
      · intro U
        simp only [append, appendVals, ha, List.length_singleton, hle, if_true]
        exact Mem.next_writeList _ _ _ _ _ _

/-- C13. At most one reallocation per call: in every call of `Append`,
`AppendMap` (with a non-nil `conv`) or `AppendBackTo` with non-nil `values`,
`grow(dst, len(values))` returns either `dst` itself with the memory as it
was or a slice on a fresh array, with spare capacity for `len(values)`
elements; at every iteration of the loop the spare capacity is at least the
number of elements still to be appended, every `append` of the loop keeps the
backing array and the capacity and allocates nothing, and the returned slice
is on the array that `grow` returned. -/
theorem C13_single_reallocation (L : Host) (σ : Type) (T S : Ty L) (m : Mem L) (e : σ)
    (f : Val L S → σ → Val L T × σ) (dstAny dst values : Slice)
    (hda : dstAny.Valid m .any) (hd : dst.Valid m T) (hnil : values.isNil = false) :
    (∃ b m1, grow .any m dstAny values.len = some (b, m1) ∧ values.len ≤ b.cap - b.len ∧
      ((b = dstAny ∧ m1 = m) ∨ b.data = some ((m .any).next + 1, 0)) ∧
      LoopInPlace S .any values (Append.body S) b m1 () ∧
      ∃ r m2, Append S m dstAny values = some (r, m2) ∧ r.data = b.data ∧ r.cap = b.cap ∧
        ∀ U, (m2 U).next = (m1 U).next) ∧
    (∃ b m1, grow T m dst values.len = some (b, m1) ∧ values.len ≤ b.cap - b.len ∧
      ((b = dst ∧ m1 = m) ∨ b.data = some ((m T).next + 1, 0)) ∧
      LoopInPlace S T values (AppendMap.body T S (some f)) b m1 e ∧
      ∃ r m2 e2, AppendMap T S m e dst (some f) values = some (r, m2, e2) ∧
        r.data = b.data ∧ r.cap = b.cap ∧ ∀ U, (m2 U).next = (m1 U).next) ∧
    (∃ b m1, grow T m dst values.len = some (b, m1) ∧ values.len ≤ b.cap - b.len ∧
      ((b = dst ∧ m1 = m) ∨ b.data = some ((m T).next + 1, 0)) ∧
      LoopInPlace S T values (AppendBackTo.body T S) b m1 () ∧
      ∃ r m2, AppendBackTo T S m dst values = some (r, m2) ∧ r.data = b.data ∧
        r.cap = b.cap ∧ ∀ U, (m2 U).next = (m1 U).next) := by
  refine ⟨?_, ?_, ?_⟩
  · obtain ⟨b, m1, h1, _, h3, h4, h5⟩ :=
      loopInPlace_of_grow S .any m () dstAny values (Append.body S) hda hnil
        (Append_body_push S)
    obtain ⟨st, k1, _, k3, k4, _, _, k7, _⟩ := h5 values.len (Nat.le_refl _)
    refine ⟨b, m1, h1, h3, ?_, h5, st.a, st.mem, ?_, k3, k4, k7⟩
    · rcases h4 with ⟨_, a2, a3⟩ | ⟨_, a2, _⟩
      · exact Or.inl ⟨a2, a3⟩
      · exact Or.inr a2
    · simp only [Append, hnil, Bool.false_eq_true, if_false, h1, k1, Option.map_some']
  · obtain ⟨b, m1, h1, _, h3, h4, h5⟩ :=
      loopInPlace_of_grow S T m e dst values (AppendMap.body T S (some f)) hd hnil
        (AppendMap_body_push T S f)
    obtain ⟨st, k1, _, k3, k4, _, _, k7, _⟩ := h5 values.len (Nat.le_refl _)
    refine ⟨b, m1, h1, h3, ?_, h5, st.a, st.mem, st.env, ?_, k3, k4, k7⟩
    · rcases h4 with ⟨_, a2, a3⟩ | ⟨_, a2, _⟩
      · exact Or.inl ⟨a2, a3⟩
      · exact Or.inr a2
    · simp only [AppendMap, hnil, Bool.false_eq_true, if_false, h1, k1, Option.map_some',
        Frame.result]
  · obtain ⟨b, m1, h1, _, h3, h4, h5⟩ :=
      loopInPlace_of_grow S T m () dst values (AppendBackTo.body T S) hd hnil
        (AppendBackTo_body_push T S)
    obtain ⟨st, k1, _, k3, k4, _, _, k7, _⟩ := h5 values.len (Nat.le_refl _)
    refine ⟨b, m1, h1, h3, ?_, h5, st.a, st.mem, ?_, k3, k4, k7⟩
    · rcases h4 with ⟨_, a2, a3⟩ | ⟨_, a2, _⟩
      · exact Or.inl ⟨a2, a3⟩
      · exact Or.inr a2
    · simp only [AppendBackTo, hnil, Bool.false_eq_true, if_false, h1, k1, Option.map_some']

/-- Witness of C13: `Append([]any{1, "two"}, []int{3, 4, 5}...)`, where `grow`
moves the destination once (capacity 2 to capacity 5) and the returned slice
has that capacity. -/
theorem C13_single_reallocation_witness :
    exA.1.Valid exInts.2 .any ∧ Slice.nil.Valid exInts.2 tString ∧
    exInts.1.isNil = false ∧
    ∃ b m1, grow .any exInts.2 exA.1 exInts.1.len = some (b, m1) ∧
      exInts.1.len ≤ b.cap - b.len ∧
      ∃ r m2, Append tInt exInts.2 exA.1 exInts.1 = some (r, m2) ∧ r.data = b.data ∧
        r.cap = b.cap ∧ ∀ U, (m2 U).next = (m1 U).next := by
  have hda : exA.1.Valid exInts.2 .any :=
    (valid_literal (Mem.empty Ex) .any _).mono (extends_literal _ _ _)
  refine ⟨hda, valid_nil _ _, rfl, ?_⟩
  obtain ⟨⟨b, m1, h1, h2, _, _, h5⟩, _, _⟩ :=
    C13_single_reallocation Ex Unit tString tInt exInts.2 ()
      (fun i e => (exConv i, e)) exA.1 Slice.nil exInts.1 hda (valid_nil _ _) rfl
  exact ⟨b, m1, h1, h2, h5⟩

/-- C14. No append variant panics on well-formed slices: for every valid
destination `dst` (nil included), every valid `values` and every non-nil
`conv`, `Append`, `AppendMap` and `AppendBackTo` return a result. Inside
`grow` the re-slice `a[:cap(a)]` is in bounds, `make([]A, n)` is reached only
with `n > 0`, the final `[:len(a)]` is in bounds, and `grow` returns for every
`n`; a failed type assertion in `AppendBackTo` appends the zero value. -/
theorem C14_no_panic (L : Host) (σ : Type) (T S : Ty L) (m : Mem L) (e : σ)
    (f : Val L S → σ → Val L T × σ) (dstAny dst values : Slice)
    (hda : dstAny.Valid m .any) (hd : dst.Valid m T) (hv : values.Valid m S) :
    (∃ r m1, Append S m dstAny values = some (r, m1)) ∧
    (∃ r m1 e1, AppendMap T S m e dst (some f) values = some (r, m1, e1)) ∧
    (∃ r m1, AppendBackTo T S m dst values = some (r, m1)) ∧
    (∀ k : Nat, ∃ b m1, grow T m dst k = some (b, m1)) ∧
    resliceTo dst dst.cap = some { dst with len := dst.cap } ∧
    (∀ k : Nat, (k : Int) - ((dst.cap : Int) - (dst.len : Int)) > 0 →
      0 < k - (dst.cap - dst.len) ∧
      (((k : Int) - ((dst.cap : Int) - (dst.len : Int))).toNat : Int) =
        (k : Int) - ((dst.cap : Int) - (dst.len : Int))) ∧
    (∀ k : Nat, dst.cap - dst.len < k →
      (resliceTo
        (appendSlice (make m T (k - (dst.cap - dst.len))).2 T { dst with len := dst.cap }
          (make m T (k - (dst.cap - dst.len))).1).1 dst.len).isSome = true) ∧
    (∀ i v (st : Frame L σ), assertTo T (box S v) = none →
      AppendBackTo.body T S i v st = some (st.push T (zeroVal L T))) := by
  have hs0 : values.data = none → values.len = 0 := fun h => hv.len_of_nil h
  have hlc := hd.len_le_cap
  obtain ⟨r1, m1, h1, _⟩ := Append_header S m dstAny values hda hs0
  obtain ⟨r2, m2, e2, h2, _⟩ := AppendMap_header T S f m e dst values hd hs0
  obtain ⟨r3, m3, h3, _⟩ := AppendBackTo_header T S m dst values hd hs0
  refine ⟨⟨r1, m1, h1⟩, ⟨r2, m2, e2, h2⟩, ⟨r3, m3, h3⟩, ?_, ?_, ?_, ?_, ?_⟩
  · intro k
    obtain ⟨b, mb, hg, _⟩ := grow_spec T m dst k hd
    exact ⟨b, mb, hg⟩
  · simp [resliceTo]
  · intro k hk
    omega
  · intro k hk
    have hz : (elems (make m T (k - (dst.cap - dst.len))).2 T
        (make m T (k - (dst.cap - dst.len))).1).length = k - (dst.cap - dst.len) := by
      rw [length_elems _ _ _ (by intro h; simp [make] at h)]
      rfl
    have hnot : ¬(dst.cap + (k - (dst.cap - dst.len)) ≤ dst.cap) := by omega
    have hle : dst.len ≤ dst.cap + (k - (dst.cap - dst.len)) +
        L.slack dst.cap (dst.cap + (k - (dst.cap - dst.len))) := by omega
    simp only [appendSlice, appendVals, hz, hnot, if_false, resliceTo, hle, if_true,
      Option.isSome_some]
  · intro i v st hnone
    simp only [AppendBackTo.body, hnone]

/-- Witness of C14: the nil destination with `[]int{3, 4, 5}`. -/
theorem C14_no_panic_witness :
    Slice.nil.Valid exInts.2 .any ∧ Slice.nil.Valid exInts.2 tString ∧
    exInts.1.Valid exInts.2 tInt ∧
    (∃ r m1, Append tInt exInts.2 Slice.nil exInts.1 = some (r, m1)) ∧
    (∃ r m1 e1, AppendMap tString tInt exInts.2 (0 : Nat) Slice.nil
      (some (fun (i : Int) (n : Nat) => (exConv i, n + 1))) exInts.1 = some (r, m1, e1)) ∧
    (Append tInt exInts.2 Slice.nil exInts.1).map (fun r => elems r.2 .any r.1) =
      some [anyInt 3, anyInt 4, anyInt 5] :=
  ⟨valid_nil _ _, valid_nil _ _, valid_literal _ _ _,
    (C14_no_panic Ex Nat tString tInt exInts.2 (0 : Nat)
      (fun (i : Int) (n : Nat) => (exConv i, n + 1)) Slice.nil Slice.nil exInts.1
      (valid_nil _ _) (valid_nil _ _) (valid_literal _ _ _)).1,
    (C14_no_panic Ex Nat tString tInt exInts.2 (0 : Nat)
      (fun (i : Int) (n : Nat) => (exConv i, n + 1)) Slice.nil Slice.nil exInts.1
      (valid_nil _ _) (valid_nil _ _) (valid_literal _ _ _)).2.1,
    by decide⟩

/-! ## Narrowing -/

theorem elems_literal (m : Mem L) (T : Ty L) (vs : List (Val L T)) :
    elems (literal m T vs).2 T (literal m T vs).1 = vs := by
  apply List.ext_getElem?
  intro i
  by_cases hi : i < vs.length
  · rw [elems_getElem _ T _ (m T).next 0 i rfl hi]
    show some ((m.alloc T vs).2.get T (m T).next (0 + i)) = _
    rw [Mem.get_alloc_new, Nat.zero_add, List.getD_eq_getElem?_getD,
      List.getElem?_eq_getElem hi]
    rfl
  · rw [elems_getElem_none _ T _ i (by intro h; simp [literal] at h)
      (by simp only [literal]; omega), List.getElem?_eq_none_iff.mpr (by omega)]

/-- C16. Postcondition of `grow`: for every valid slice `a` and every
`n >= 0`, `grow(a, n)` returns a slice with the length of `a` and the elements
of `a` at the indices `0..len(a)-1`, whose capacity is at least `len(a) + n`;
when the spare capacity `cap(a) - len(a)` is already at least `n`, it returns
the header `a` itself and leaves the memory as it was. -/
theorem C16_grow_postcondition (L : Host) (T : Ty L) (m : Mem L) (a : Slice) (n : Int)
    (hn : 0 ≤ n) (hv : a.Valid m T) :
    ∃ b m1, grow T m a n = some (b, m1) ∧ b.len = a.len ∧
      elems m1 T b = elems m T a ∧ (∀ i, index m1 T b i = index m T a i) ∧
      (a.len : Int) + n ≤ (b.cap : Int) ∧
      (n ≤ (a.cap : Int) - (a.len : Int) → b = a ∧ m1 = m) := by
  obtain ⟨b, m1, h1, h2, h3, _, _, h6, h7⟩ := grow_spec T m a n.toNat hv
  have hnn : ((n.toNat : Nat) : Int) = n := Int.toNat_of_nonneg hn
  rw [hnn] at h1
  have hlc := hv.len_le_cap
  refine ⟨b, m1, h1, h2, h6, fun i => ?_, by omega, fun hle => ?_⟩
  · rw [index_eq_getElem, index_eq_getElem, h6]
  · rcases h7 with ⟨_, k2, k3⟩ | ⟨k1, _, _⟩
    · exact ⟨k2, k3⟩
    · omega

/-- Witness of C16: `grow` of `[]any{1, "two"}` (capacity 2) by 3 returns a
slice of length 2 with the same elements and a capacity of at least 5. -/
theorem C16_grow_postcondition_witness :
    (0 : Int) ≤ 3 ∧ exA.1.Valid exA.2 .any ∧
    ∃ b m1, grow .any exA.2 exA.1 3 = some (b, m1) ∧ b.len = 2 ∧
      elems m1 .any b = [anyInt 1, anyString "two"] ∧ (5 : Int) ≤ (b.cap : Int) := by
  refine ⟨by decide, valid_literal _ _ _, ?_⟩
  obtain ⟨b, m1, h1, h2, h3, _, h5, _⟩ :=
    C16_grow_postcondition Ex .any exA.2 exA.1 3 (by decide) (valid_literal _ _ _)
  refine ⟨b, m1, h1, h2, ?_, h5⟩
  rw [h3]
  decide

/-- C19. With the target `T = any`, narrowing is the identity: for every
slice `aa` of type `[]any`, nil interface elements included, `BackTo[any]`
returns a slice with the nil-ness, the length and, at every index, the element
of `aa`. The assertion of a nil interface to `any` fails, and the zero value
of `any` that replaces it is the nil interface. -/
theorem C19_BackTo_any_identity (L : Host) (m : Mem L) (aa : Slice) (hv : aa.Valid m .any) :
    (∃ r m1, BackTo .any .any m aa = some (r, m1) ∧ r.isNil = aa.isNil ∧ r.len = aa.len ∧
      elems m1 .any r = elems m .any aa ∧ ∀ i, index m1 .any r i = index m .any aa i) ∧
    assertTo (Ty.any : Ty L) none = none ∧ zeroVal L .any = none ∧
    (∀ x : Val L .any, narrow .any .any x = x) := by
  have hid : ∀ x : Val L .any, narrow .any .any x = x := fun x => narrow_box .any x
  refine ⟨?_, rfl, rfl, hid⟩
  obtain ⟨r, m1, h1, h2, h3, h4, _, _⟩ := BackTo_spec .any .any m aa hv
  have he : elems m1 .any r = elems m .any aa := by
    rw [h4]
    conv_rhs => rw [← List.map_id (elems m .any aa)]
    apply List.map_congr_left
    intro x _
    exact hid x
  refine ⟨r, m1, h1, h2, h3, he, fun i => ?_⟩
  rw [index_eq_getElem, index_eq_getElem, he]

/-- Witness of C19: `BackTo[any]` of `[]any{1, nil}`. -/
theorem C19_BackTo_any_identity_witness :
    (literal (Mem.empty Ex) .any [anyInt 1, none]).1.Valid
      (literal (Mem.empty Ex) .any [anyInt 1, none]).2 .any ∧
    ∃ r m1, BackTo .any .any (literal (Mem.empty Ex) .any [anyInt 1, none]).2
        (literal (Mem.empty Ex) .any [anyInt 1, none]).1 = some (r, m1) ∧
      elems m1 .any r = [anyInt 1, none] := by
  refine ⟨valid_literal _ _ _, ?_⟩
  obtain ⟨⟨r, m1, h1, _, _, h4, _⟩, _⟩ :=
    C19_BackTo_any_identity Ex _ _
      (valid_literal (Mem.empty Ex) .any [anyInt 1, none])
  refine ⟨r, m1, h1, ?_⟩
  rw [h4]
  decide

/-- C20. Nil-ness of the append result: for valid slices and a non-nil
`conv`, the slice returned by `Append`, `AppendMap` and `AppendBackTo` is nil
if and only if `dst` is nil and `values` has no element (nil or empty). In
particular `Append(nil, s...)` for an empty non-nil `s` returns nil and
allocates nothing, whereas `From(s...)` returns a non-nil empty slice. -/
theorem C20_append_nilness (L : Host) (σ : Type) (T S : Ty L) (m : Mem L) (e : σ)
    (f : Val L S → σ → Val L T × σ) (dstAny dst values : Slice)
    (hda : dstAny.Valid m .any) (hd : dst.Valid m T) (hv : values.Valid m S) :
    (∃ r m1, Append S m dstAny values = some (r, m1) ∧
      (r.isNil = true ↔ dstAny.isNil = true ∧ values.len = 0)) ∧
    (∃ r m1 e1, AppendMap T S m e dst (some f) values = some (r, m1, e1) ∧
      (r.isNil = true ↔ dst.isNil = true ∧ values.len = 0)) ∧
    (∃ r m1, AppendBackTo T S m dst values = some (r, m1) ∧
      (r.isNil = true ↔ dst.isNil = true ∧ values.len = 0)) ∧
    (values.isNil = false → values.len = 0 →
      Append S m Slice.nil values = some (Slice.nil, m) ∧
      ∃ r m1, From S m values = some (r, m1) ∧ r.isNil = false ∧ r.len = 0) := by
  have hs0 : values.data = none → values.len = 0 := fun h => hv.len_of_nil h
  obtain ⟨r1, m1, h1, _, k1⟩ := Append_header S m dstAny values hda hs0
  obtain ⟨r2, m2, e2, h2, _, k2⟩ := AppendMap_header T S f m e dst values hd hs0
  obtain ⟨r3, m3, h3, _, k3⟩ := AppendBackTo_header T S m dst values hd hs0
  refine ⟨⟨r1, m1, h1, k1⟩, ⟨r2, m2, e2, h2, k2⟩, ⟨r3, m3, h3, k3⟩, ?_⟩
  intro hn h0
  constructor
  · have hg : grow .any m Slice.nil ((0 : Nat) : Int) = some (Slice.nil, m) :=
      grow_noop .any m Slice.nil 0 (valid_nil m .any) (Nat.zero_le _)
    simp only [Append, hn, Bool.false_eq_true, if_false, h0, hg, forRange, Option.map_some']
  · obtain ⟨r, mr, a1, a2, a3, _⟩ := From_spec S m values hv
    exact ⟨r, mr, a1, by rw [a2, hn], by rw [a3, h0]⟩

/-- Witness of C20: the empty non-nil `[]int{}` appended to the nil slice. -/
theorem C20_append_nilness_witness :
    Slice.nil.Valid (literal (Mem.empty Ex) tInt []).2 .any ∧
    Slice.nil.Valid (literal (Mem.empty Ex) tInt []).2 tString ∧
    (literal (Mem.empty Ex) tInt []).1.Valid (literal (Mem.empty Ex) tInt []).2 tInt ∧
    (literal (Mem.empty Ex) tInt []).1.isNil = false ∧
    (literal (Mem.empty Ex) tInt []).1.len = 0 ∧
    Append tInt (literal (Mem.empty Ex) tInt []).2 Slice.nil (literal (Mem.empty Ex) tInt []).1 =
      some (Slice.nil, (literal (Mem.empty Ex) tInt []).2) ∧
    ∃ r m1, From tInt (literal (Mem.empty Ex) tInt []).2 (literal (Mem.empty Ex) tInt []).1 =
      some (r, m1) ∧ r.isNil = false ∧ r.len = 0 :=
  ⟨valid_nil _ _, valid_nil _ _, valid_literal _ _ _, rfl, rfl,
    ((C20_append_nilness Ex Unit tString tInt (literal (Mem.empty Ex) tInt []).2 ()
      (fun i e => (exConv i, e)) Slice.nil Slice.nil (literal (Mem.empty Ex) tInt []).1
      (valid_nil _ _) (valid_nil _ _) (valid_literal _ _ _)).2.2.2 rfl rfl).1,
    ((C20_append_nilness Ex Unit tString tInt (literal (Mem.empty Ex) tInt []).2 ()
      (fun i e => (exConv i, e)) Slice.nil Slice.nil (literal (Mem.empty Ex) tInt []).1
      (valid_nil _ _) (valid_nil _ _) (valid_literal _ _ _)).2.2.2 rfl rfl).2⟩

/-! ## Append variants against their counterparts, and repeated appends -/

/-- C17, failing input. With `arr := []any{1, 2, 3, 4}`,
`AppendBackTo[any](arr[:2], arr[1:3]...)` is `[1, 2, 2, 2]`, while `arr[:2]`
followed by `BackTo[any](arr[1:3]...)` is `[1, 2, 2, 3]`: the append variant
writes `arr[2]` before its loop reads it, the non-append counterpart writes a
fresh array. On the same values the two agree when `grow` moves the
destination (`arr[:2:2]`, no spare capacity). -/
theorem C17_counterpart_failing_input :
    resliceTo exAnyArr4.1 2 = some exPair ∧ reslice exAnyArr4.1 1 3 = some exMid ∧
    (AppendBackTo .any .any exAnyArr4.2 exPair exMid).map (fun r => elems r.2 .any r.1) =
      some [anyInt 1, anyInt 2, anyInt 2, anyInt 2] ∧
    (BackTo .any .any exAnyArr4.2 exMid).map
      (fun x => elems exAnyArr4.2 .any exPair ++ elems x.2 .any x.1) =
      some [anyInt 1, anyInt 2, anyInt 2, anyInt 3] ∧
    (AppendBackTo .any .any exAnyArr4.2 exPair exMid).map (fun r => elems r.2 .any r.1) ≠
      (BackTo .any .any exAnyArr4.2 exMid).map
        (fun x => elems exAnyArr4.2 .any exPair ++ elems x.2 .any x.1) ∧
    reslice3 exAnyArr4.1 0 2 2 = some exPairFull ∧
    (AppendBackTo .any .any exAnyArr4.2 exPairFull exMid).map
      (fun r => elems r.2 .any r.1) =
      (BackTo .any .any exAnyArr4.2 exMid).map
        (fun x => elems exAnyArr4.2 .any exPairFull ++ elems x.2 .any x.1) := by
  decide

/-- C18 as stated fails when the first `Append` writes a cell of `s2`: with
`arr := []any{1, 2, 3}`, `dst = arr[:1]`, `s1 = arr[0:1]` and `s2 = arr[1:2]`,
the first `Append` has spare capacity and writes `arr[1]` in place, so
`Append(Append(dst, s1...), s2...)` is `[1, 1, 1]`, while `Append` of `dst`
with the concatenation `[1, 2]` of `s1` and `s2` is `[1, 1, 2]`. Each call
runs one iteration, so no call overwrites a value of its own. -/
theorem C18_two_step_overlap_counterexample :
    resliceTo exAnyArr.1 1 = some exHead ∧ reslice exAnyArr.1 0 1 = some exHead ∧
    reslice exAnyArr.1 1 2 = some exCell1 ∧
    elems exJoined.2 .any exJoined.1 =
      elems exJoined.2 .any exHead ++ elems exJoined.2 .any exCell1 ∧
    ((Append .any exJoined.2 exHead exHead).bind
      (fun r => Append .any r.2 r.1 exCell1)).map (fun r => elems r.2 .any r.1) =
      some [anyInt 1, anyInt 1, anyInt 1] ∧
    (Append .any exJoined.2 exHead exJoined.1).map (fun r => elems r.2 .any r.1) =
      some [anyInt 1, anyInt 1, anyInt 2] := by
  decide

/-- Full specification of `Append` for valid inputs, nil `values` included,
when no value is overwritten before it is read: the elements of the result,
the header of the result (`dst` extended in place, or a slice on the fresh
array of `grow`), and the frame: every valid slice of which the call writes no
cell keeps its elements. -/
theorem Append_full (S : Ty L) (m : Mem L) (dst s : Slice) (hd : dst.Valid m .any)
    (hv : s.Valid m S) (hap : ¬Clobbers S .any dst s) :
    ∃ r m1, Append S m dst s = some (r, m1) ∧ r.len = dst.len + s.len ∧
      elems m1 .any r = elems m .any dst ++ (elems m S s).map (box S) ∧
      r.Valid m1 .any ∧ (∀ U, (m U).next ≤ (m1 U).next) ∧
      ((s.len ≤ dst.cap - dst.len ∧ r = dst.extended s.len) ∨
        (dst.cap - dst.len < s.len ∧ r.data = some ((m .any).next + 1, 0))) ∧
      ∀ (U : Ty L) (t : Slice), t.Valid m U → ¬WritesInto .any U dst s.len t →
        elems m1 U t = elems m U t := by
  cases hn : s.isNil with
  | true =>
    have hsd : s.data = none := by simpa [Slice.isNil] using hn
    have h0 : s.len = 0 := hv.len_of_nil hsd
    refine ⟨dst, m, by simp [Append, hn], by omega, ?_, hd, fun _ => Nat.le_refl _,
      Or.inl ⟨by omega, by rw [h0]; rfl⟩, fun U t _ _ => rfl⟩
    rw [elems_nil_data m S s hsd]
    simp
  | false =>
    obtain ⟨b, mb, st1, h1, h2, _, h4, _, hcase, h7, h8, hfr, hnext⟩ :=
      push_spec S .any (box S) m () dst s (Append.body S) hd hv hn hap (fun _ _ _ => rfl)
    refine ⟨st1.a, st1.mem, ?_, by rw [h4], h7, h8, hnext, ?_, ?_⟩
    · simp only [Append, hn, Bool.false_eq_true, if_false, h1, h2, Option.map_some']
    · rcases hcase with ⟨k1, k2⟩ | ⟨k1, k2, _⟩
      · exact Or.inl ⟨k1, by rw [h4, k2]; rfl⟩
      · exact Or.inr ⟨k1, by rw [h4]; exact k2⟩
    · intro U t ht hw
      cases htd : t.data with
      | none => rw [elems_nil_data _ U t htd, elems_nil_data _ U t htd]
      | some d =>
        obtain ⟨pt, ot⟩ := d
        rw [elems_eq _ U t pt ot htd, elems_eq _ U t pt ot htd]
        apply List.map_congr_left
        intro i hi
        rw [List.mem_range] at hi
        apply hfr U pt (ot + i) (ht.allocated pt ot htd)
        rintro ⟨e1, e2, od, e3, e4, e5⟩
        exact hw ⟨e1, e2, pt, od, ot, e3, htd, ot + i, by omega, by omega, e4, e5⟩

/-- C18, amended. Appending in two steps equals appending once when the
first `Append` writes no cell of `s2` and no call overwrites one of its own
values before reading it: for every valid `dst` of type `[]any`, all valid
slices `s1`, `s2` of `S` (either possibly nil or empty) and every valid slice
`s12` holding the elements of `s1` followed by those of `s2`,
`Append(Append(dst, s1...), s2...)` has the same elements in the same order as
`Append(dst, s12...)`: those of `dst`, then those of `s1`, then those of
`s2`, each converted to `any`. The first `Append` writes cells only when
`dst` has spare capacity for `s1`; the second `Append` is then called on `dst`
extended in place by `len(s1)` elements. -/
theorem C18_append_two_steps (L : Host) (S : Ty L) (m : Mem L) (dst s1 s2 s12 : Slice)
    (hd : dst.Valid m .any) (h1 : s1.Valid m S) (h2 : s2.Valid m S) (h12 : s12.Valid m S)
    (hw : ¬WritesInto .any S dst s1.len s2)
    (c1 : ¬Clobbers S .any dst s1)
    (c2 : s1.len ≤ dst.cap - dst.len → ¬Clobbers S .any (dst.extended s1.len) s2)
    (c12 : ¬Clobbers S .any dst s12)
    (hcat : elems m S s12 = elems m S s1 ++ elems m S s2) :
    ∃ r1 m1 r2 m2 r m3, Append S m dst s1 = some (r1, m1) ∧
      Append S m1 r1 s2 = some (r2, m2) ∧ Append S m dst s12 = some (r, m3) ∧
      elems m2 .any r2 = elems m3 .any r ∧
      elems m2 .any r2 =
        elems m .any dst ++ (elems m S s1).map (box S) ++ (elems m S s2).map (box S) := by
  obtain ⟨r1, m1, b1, _, b3, b4, b5, b6, b7⟩ := Append_full S m dst s1 hd h1 c1
  have e2 : elems m1 S s2 = elems m S s2 := b7 S s2 h2 hw
  have h2v : s2.Valid m1 S :=
    ⟨h2.len_le_cap, fun p o hp => Nat.lt_of_lt_of_le (h2.allocated p o hp) (b5 S), h2.nil_cap⟩
  have c2r : ¬Clobbers S .any r1 s2 := by
    rcases b6 with ⟨k1, k2⟩ | ⟨_, k2⟩
    · rw [k2]
      exact c2 k1
    · rintro ⟨e1, _, p, od, os, hr, hs, _⟩
      rw [k2] at hr
      simp only [Option.some.injEq, Prod.mk.injEq] at hr
      have := h2.allocated p os hs
      rw [e1] at this
      omega
  obtain ⟨r2, m2, d1, _, d3, _⟩ := Append_full S m1 r1 s2 b4 h2v c2r
  obtain ⟨r, m3, f1, _, f3, _⟩ := Append_full S m dst s12 hd h12 c12
  have hfin : elems m2 .any r2 =
      elems m .any dst ++ (elems m S s1).map (box S) ++ (elems m S s2).map (box S) := by
    rw [d3, b3, e2]
  refine ⟨r1, m1, r2, m2, r, m3, b1, d1, f1, ?_, hfin⟩
  rw [hfin, f3, hcat, List.map_append, List.append_assoc]

/-- Witness of C18: with `arr := []any{1, 2, 3, 4}`, `dst = arr[:2]`,
`s1 = arr[0:1]`, `s2 = arr[1:2]` and their concatenation `arr[0:2]`, all on one
backing array: both steps append in place (into `arr[2]`, then `arr[3]`) and
the two ways give `[1, 2, 1, 2]`. -/
theorem C18_append_two_steps_witness :
    resliceTo exAnyArr4.1 2 = some exPair ∧ reslice exAnyArr4.1 0 1 = some exFirstOf4 ∧
    reslice exAnyArr4.1 1 2 = some exSecondOf4 ∧ reslice exAnyArr4.1 0 2 = some exPair ∧
    exPair.Valid exAnyArr4.2 .any ∧ exFirstOf4.Valid exAnyArr4.2 .any ∧
    exSecondOf4.Valid exAnyArr4.2 .any ∧
    ¬WritesInto (Ty.any : Ty Ex) .any exPair exFirstOf4.len exSecondOf4 ∧
    ¬Clobbers (Ty.any : Ty Ex) .any exPair exFirstOf4 ∧
    (exFirstOf4.len ≤ exPair.cap - exPair.len →
      ¬Clobbers (Ty.any : Ty Ex) .any (exPair.extended exFirstOf4.len) exSecondOf4) ∧
    ¬Clobbers (Ty.any : Ty Ex) .any exPair exPair ∧
    elems exAnyArr4.2 .any exPair =
      elems exAnyArr4.2 .any exFirstOf4 ++ elems exAnyArr4.2 .any exSecondOf4 ∧
    ∃ r1 m1 r2 m2 r m3, Append .any exAnyArr4.2 exPair exFirstOf4 = some (r1, m1) ∧
      Append .any m1 r1 exSecondOf4 = some (r2, m2) ∧
      Append .any exAnyArr4.2 exPair exPair = some (r, m3) ∧
      elems m2 .any r2 = elems m3 .any r ∧
      elems m2 .any r2 = [anyInt 1, anyInt 2, anyInt 1, anyInt 2] := by
  have hd : exPair.Valid exAnyArr4.2 .any := valid_mk _ _ _ _ _ _ (by decide) (by decide)
  have h1 : exFirstOf4.Valid exAnyArr4.2 .any := valid_mk _ _ _ _ _ _ (by decide) (by decide)
  have h2 : exSecondOf4.Valid exAnyArr4.2 .any := valid_mk _ _ _ _ _ _ (by decide) (by decide)
  have hw : ¬WritesInto (Ty.any : Ty Ex) .any exPair exFirstOf4.len exSecondOf4 := by
    rintro ⟨_, _, p, od, ot, a1, a2, x, a3, a4, a5, a6⟩
    simp only [exPair, exSecondOf4, exFirstOf4, Option.some.injEq, Prod.mk.injEq] at a1 a2 a3 a4 a5 a6
    omega
  have c1 : ¬Clobbers (Ty.any : Ty Ex) .any exPair exFirstOf4 := by
    rintro ⟨_, _, p, od, os, a1, a2, i, j, a3, a4, a5⟩
    simp only [exPair, exFirstOf4, Option.some.injEq, Prod.mk.injEq] at a1 a2 a3 a4 a5
    omega
  have c2 : exFirstOf4.len ≤ exPair.cap - exPair.len →
      ¬Clobbers (Ty.any : Ty Ex) .any (exPair.extended exFirstOf4.len) exSecondOf4 := by
    rintro _ ⟨_, _, p, od, os, a1, a2, i, j, a3, a4, a5⟩
    simp only [exPair, exFirstOf4, exSecondOf4, Slice.extended, Option.some.injEq,
      Prod.mk.injEq] at a1 a2 a3 a4 a5
    omega
  have c12 : ¬Clobbers (Ty.any : Ty Ex) .any exPair exPair := by
    rintro ⟨_, _, p, od, os, a1, a2, i, j, a3, a4, a5⟩
    simp only [exPair, Option.some.injEq, Prod.mk.injEq] at a1 a2 a3 a4 a5
    omega
  have hcat : elems exAnyArr4.2 .any exPair =
      elems exAnyArr4.2 .any exFirstOf4 ++ elems exAnyArr4.2 .any exSecondOf4 := by decide
  refine ⟨by decide, by decide, by decide, by decide, hd, h1, h2, hw, c1, c2, c12, hcat, ?_⟩
  obtain ⟨r1, m1, r2, m2, r, m3, k1, k2, k3, k4, k5⟩ :=
    C18_append_two_steps Ex .any exAnyArr4.2 exPair exFirstOf4 exSecondOf4 exPair hd h1 h2 hd
      hw c1 c2 c12 hcat
  refine ⟨r1, m1, r2, m2, r, m3, k1, k2, k3, k4, ?_⟩
  rw [k5]
  decide

/-! ## Lossy narrowing -/

theorem box_zero_of_not_concrete (T : Ty L) (hT : ∀ c, T ≠ Ty.concrete c) :
    box T (zeroVal L T) = none := by
  cases T with
  | concrete c => exact absurd rfl (hT c)
  | any => rfl
  | iface i => rfl

theorem eq_box_zero_iff (T : Ty L) (x : Val L .any) (hx : assertTo T x = none) :
    x = box T (zeroVal L T) ↔ x = none ∧ ∀ c, T ≠ Ty.concrete c := by
  constructor
  · intro he
    cases T with
    | concrete c =>
      have := (assertTo_concrete_iff c x (L.zero c)).mpr he
      rw [hx] at this
      cases this
    | any => exact ⟨he, fun c h => by cases h⟩
    | iface i => exact ⟨he, fun c h => by cases h⟩
  · rintro ⟨h0, hT⟩
    rw [h0, box_zero_of_not_concrete T hT]

/-- C15 as stated fails at `T = any`: the only value that does not assert to
`any` is the nil interface, which is the zero value of `any` itself, so the
two inputs `[x]` and `[zero value]` do not differ; and `BackTo[any]` maps
different elements to different elements (`"a"`, `0` and nil come back as
themselves), so it is injective. -/
theorem C15_any_counterexample :
    assertTo (Ty.any : Ty Ex) none = none ∧
    (none : Val Ex .any) = box .any (zeroVal Ex .any) ∧
    (∀ x : Val Ex .any, assertTo .any x = none → x = box .any (zeroVal Ex .any)) ∧
    (∀ x y : Val Ex .any, narrow .any .any x = narrow .any .any y → x = y) ∧
    (BackTo .any .any (literal (Mem.empty Ex) .any [anyString "a", anyInt 0, none]).2
        (literal (Mem.empty Ex) .any [anyString "a", anyInt 0, none]).1).map
      (fun r => elems r.2 .any r.1) = some [anyString "a", anyInt 0, none] := by
  refine ⟨rfl, rfl, ?_, ?_, by decide⟩
  · intro x hx
    exact (eq_box_zero_iff .any x hx).mpr
      ⟨by
        cases x with
        | none => rfl
        | some d => simp [assertTo] at hx, fun c h => by cases h⟩
  · intro x y h
    have hx : narrow .any .any x = x := narrow_box .any x
    have hy : narrow .any .any y = y := narrow_box .any y
    rw [hx, hy] at h
    exact h

/-- C15, amended. Narrowing is lossy: for every target type `T` and every
value `x`, the nil interface included, whose assertion to `T` fails,
`BackTo[T]` of a one-element slice `[x]` and `BackTo[T]` of a one-element
slice holding the zero value of `T` both return `[zero value of T]`. The two
inputs are the same only when `x` is the nil interface and `T` is an interface
type, whose zero value is nil. For every concrete `T` the nil interface fails
the assertion and differs from the zero value, so `BackTo[T]` is not
injective; `BackTo[any]` maps different elements to different elements. -/
theorem C15_narrowing_lossy (L : Host) (T : Ty L) (m : Mem L) (x : Val L .any)
    (s1 s2 : Slice) (hx : assertTo T x = none)
    (h1 : s1.Valid m .any) (h2 : s2.Valid m .any)
    (e1 : elems m .any s1 = [x]) (e2 : elems m .any s2 = [box T (zeroVal L T)]) :
    (∃ r1 m1 r2 m2, BackTo T .any m s1 = some (r1, m1) ∧
      BackTo T .any m s2 = some (r2, m2) ∧
      elems m1 T r1 = [zeroVal L T] ∧ elems m2 T r2 = [zeroVal L T] ∧
      elems m1 T r1 = elems m2 T r2) ∧
    (elems m .any s1 = elems m .any s2 ↔ x = none ∧ ∀ c, T ≠ Ty.concrete c) ∧
    (∀ c : L.Conc, assertTo (Ty.concrete c) (none : Val L .any) = none ∧
      (none : Val L .any) ≠ box (Ty.concrete c) (zeroVal L (Ty.concrete c))) ∧
    (∀ a b : Val L .any, narrow .any .any a = narrow .any .any b → a = b) := by
  refine ⟨?_, ?_, ?_, ?_⟩
  · obtain ⟨r1, m1, a1, _, _, a4, _, _⟩ := BackTo_spec T .any m s1 h1
    obtain ⟨r2, m2, b1, _, _, b4, _, _⟩ := BackTo_spec T .any m s2 h2
    have c1 : elems m1 T r1 = [zeroVal L T] := by
      rw [a4, e1]
      simp only [List.map_cons, List.map_nil]
      rw [narrow_of_none T .any x hx]
    have c2 : elems m2 T r2 = [zeroVal L T] := by
      rw [b4, e2]
      simp only [List.map_cons, List.map_nil]
      rw [narrow_box]
    exact ⟨r1, m1, r2, m2, a1, b1, c1, c2, by rw [c1, c2]⟩
  · rw [e1, e2]
    constructor
    · intro he
      exact (eq_box_zero_iff T x hx).mp (List.head_eq_of_cons_eq he)
    · intro h
      rw [(eq_box_zero_iff T x hx).mpr h]
  · intro c
    refine ⟨rfl, ?_⟩
    intro he
    cases he
  · intro a b h
    have ha : narrow .any .any a = a := narrow_box .any a
    have hb : narrow .any .any b = b := narrow_box .any b
    rw [ha, hb] at h
    exact h

/-- Witness of C15: `BackTo[int]([]any{"a"}) == BackTo[int]([]any{0}) == [0]`,
on two different inputs. -/
theorem C15_narrowing_lossy_witness :
    assertTo tInt (anyString "a") = none ∧
    (literal (Mem.empty Ex) .any [anyString "a"]).1.Valid
      (literal (literal (Mem.empty Ex) .any [anyString "a"]).2 .any [anyInt 0]).2 .any ∧
    (literal (literal (Mem.empty Ex) .any [anyString "a"]).2 .any [anyInt 0]).1.Valid
      (literal (literal (Mem.empty Ex) .any [anyString "a"]).2 .any [anyInt 0]).2 .any ∧
    (∃ r1 m1 r2 m2,
      BackTo tInt .any (literal (literal (Mem.empty Ex) .any [anyString "a"]).2 .any [anyInt 0]).2
        (literal (Mem.empty Ex) .any [anyString "a"]).1 = some (r1, m1) ∧
      BackTo tInt .any (literal (literal (Mem.empty Ex) .any [anyString "a"]).2 .any [anyInt 0]).2
        (literal (literal (Mem.empty Ex) .any [anyString "a"]).2 .any [anyInt 0]).1 =
        some (r2, m2) ∧
      elems m1 tInt r1 = [0] ∧ elems m2 tInt r2 = [0]) ∧
    elems (literal (literal (Mem.empty Ex) .any [anyString "a"]).2 .any [anyInt 0]).2 .any
        (literal (Mem.empty Ex) .any [anyString "a"]).1 ≠
      elems (literal (literal (Mem.empty Ex) .any [anyString "a"]).2 .any [anyInt 0]).2 .any
        (literal (literal (Mem.empty Ex) .any [anyString "a"]).2 .any [anyInt 0]).1 := by
  have h1 : (literal (Mem.empty Ex) .any [anyString "a"]).1.Valid
      (literal (literal (Mem.empty Ex) .any [anyString "a"]).2 .any [anyInt 0]).2 .any :=
    (valid_literal (Mem.empty Ex) .any _).mono (extends_literal _ _ _)
  have h2 : (literal (literal (Mem.empty Ex) .any [anyString "a"]).2 .any [anyInt 0]).1.Valid
      (literal (literal (Mem.empty Ex) .any [anyString "a"]).2 .any [anyInt 0]).2 .any :=
    valid_literal _ _ _
  obtain ⟨⟨r1, m1, r2, m2, a1, a2, a3, a4, _⟩, hiff, _, _⟩ :=
    C15_narrowing_lossy Ex tInt
      (literal (literal (Mem.empty Ex) .any [anyString "a"]).2 .any [anyInt 0]).2
      (anyString "a") _ _ (by decide) h1 h2 (by decide) (by decide)
  refine ⟨by decide, h1, h2, ⟨r1, m1, r2, m2, a1, a2, a3, a4⟩, ?_⟩
  intro he
  have := (hiff.mp he).1
  cases this

end Anys
